import Mathlib

/-!
A verification development for the incremental template-rendering engine in
`src/lit-html.ts`: the template compiler (`Template._parse`), the clone-and-
re-pair binding walk (`TemplateInstance._clone`), and the update engine
(`TemplateInstance.update`, `getValue`, `_renderValue`, `_cleanup`).

Modelling conventions, stated once here:

* The document tree is modelled by `DNode`: elements with an ordered
  attribute list and ordered children, and text nodes.  This is the subset
  of nodes the code traverses (`NodeFilter.SHOW_ELEMENT | NodeFilter.SHOW_TEXT`).
* The tree traversal (`document.createTreeWalker` + `nextNode()`) is
  modelled as the canonical document-order walk over elements and text
  nodes.  The document-tree primitives are external collaborators of the
  engine and are assumed to provide a canonical ordered traversal.
* JavaScript numbers used as walk indices are modelled by `Int` (the walk
  counter starts at `-1` in the source).
* `value.split(exprMarker)` (JavaScript `String.prototype.split` with a
  plain-string separator: cut at each leftmost non-overlapping occurrence)
  is modelled by `jsSplit`, an executable split on the fixed marker token.
* Dynamic values are modelled by the inductive `Value`; a zero-argument
  callable ("deferred" value) is modelled by `Value.thunk r` where
  `r = none` means the call throws and `r = some v` means it returns `v`.
* JavaScript string coercions are modelled by `jsToString`; a function
  object coerces to its source text, modelled by a fixed placeholder
  string (which is never the quoted string literal a thunk returns).
-/

namespace LitHtml

/-- The reserved marker token placed between adjacent static literal
segments: `const exprMarker = '\x7b\x7b\x7d\x7d'` in the source. -/
def exprMarker : String := "\x7b\x7b\x7d\x7d"

/-- Split a character list at each leftmost occurrence of the marker token
`\x7b\x7b\x7d\x7d`, scanning left to right. -/
def splitChars : List Char → List (List Char)
  | '\x7b' :: '\x7b' :: '\x7d' :: '\x7d' :: rest => [] :: splitChars rest
  | c :: rest =>
      match splitChars rest with
      | s :: ss => (c :: s) :: ss
      | [] => [[c]]
  | [] => [[]]

/-- `value.split(exprMarker)`: JavaScript split with the marker as a
plain-string separator.  Always returns at least one segment; returns
`n + 1` segments for `n` marker occurrences. -/
def jsSplit (s : String) : List String := (splitChars s.data).map String.mk

/-- Document nodes: elements (tag, ordered attributes, ordered children)
and text nodes. -/
inductive DNode where
  | element (tag : String) (attrs : List (String × String)) (children : List DNode)
  | text (s : String)
deriving Repr

/-- Compiled part descriptors (`AttributePart` / `NodePart` in the source):
an attribute part carries the attribute name, the owning element's walk
index, and the attribute value split on the marker; a node part carries the
placeholder text node's walk index. -/
inductive Part where
  | attr (name : String) (index : Int) (strings : List String)
  | node (index : Int)
deriving Repr, DecidableEq

/-- The `index` field common to both part kinds. -/
def Part.index : Part → Int
  | .attr _ i _ => i
  | .node i => i

/-- Whether a part's kind matches a concrete node's kind: attribute parts
belong to element nodes, node parts to text nodes. -/
def kindMatch : Part → DNode → Bool
  | .attr _ _ _, .element _ _ _ => true
  | .node _, .text _ => true
  | _, _ => false

mutual

/-- Canonical document-order walk from one node: the node itself, then its
children's walk. -/
def walkTree : DNode → List DNode
  | .element t a cs => .element t a cs :: walkForest cs
  | .text s => [.text s]

/-- Canonical document-order walk (elements and text nodes) of a fragment,
i.e. the sequence of nodes `walker.nextNode()` yields. -/
def walkForest : List DNode → List DNode
  | [] => []
  | n :: ns => walkTree n ++ walkForest ns

end

/-- The attribute scan of `Template._parse` (source lines 106-120): for each
attribute, in order, whose value contains at least one marker, record an
attribute part at the element's walk index `idx`, carrying the split
segments.  The attribute itself is left in place. -/
def attrParts (attrs : List (String × String)) (idx : Int) : List Part :=
  attrs.filterMap fun nv =>
    let strings := jsSplit nv.2
    if strings.length > 1 then some (Part.attr nv.1 idx strings) else none

/-- The inner loop of the text-node branch of `Template._parse` (source
lines 125-135).  `v` is the running walk index at entry (the position the
original text node held, which the first literal replacement node takes
over).  For each split segment a literal text node is inserted
(`index++`), and between segments an empty placeholder text node is
inserted and a node part is recorded with the incremented value
(`index: index++`).  Returns the replacement nodes, the recorded parts and
the final index. -/
def parseTextStrings (v : Int) : List String → List DNode × List Part × Int
  | [] => ([], [], v)
  | [s] => ([.text s], [], v + 1)
  | s :: s2 :: rest =>
      let r := parseTextStrings (v + 2) (s2 :: rest)
      (.text s :: .text "" :: r.1, .node (v + 1) :: r.2.1, r.2.2)

mutual

/-- One visit of the `Template._parse` walk (source lines 96-141).  `v` is
the index value before this visit's `index++`, so the visited node takes
index `v + 1`.  At an element: record its marker-bearing attributes' parts
at the element's index, then descend into the children.  At a text node
whose value contains a marker: replace it by the alternating
literal/placeholder nodes of `parseTextStrings` and apply the final
`index--` of the branch (the original node is removed); otherwise keep the
node.  Returns the replacement node(s), the recorded parts, and the final
index. -/
def parseNode : DNode → Int → List DNode × List Part × Int
  | .element t attrs cs, v =>
      let v0 := v + 1
      let aps := attrParts attrs v0
      let rc := parseNodes cs v0
      ([.element t attrs rc.1], aps ++ rc.2.1, rc.2.2)
  | .text s, v =>
      let strings := jsSplit s
      if strings.length > 1 then
        let rt := parseTextStrings (v + 1) strings
        (rt.1, rt.2.1, rt.2.2 - 1)
      else ([.text s], [], v + 1)

/-- The `Template._parse` walk over a sibling list, visiting each node in
turn and threading the index. -/
def parseNodes : List DNode → Int → List DNode × List Part × Int
  | [], v => ([], [], v)
  | n :: ns, v =>
      let r1 := parseNode n v
      let r2 := parseNodes ns r1.2.2
      (r1.1 ++ r2.1, r1.2.1 ++ r2.2.1, r2.2.2)

end

/-- `Template._parse` over a whole fragment: the walk counter starts at
`-1`, so the first visited node has index `0`. -/
def parseFragment (frag : List DNode) : List DNode × List Part × Int :=
  parseNodes frag (-1)

/-- The re-pairing loop of `TemplateInstance._clone` (source lines
186-198): walk the cloned fragment in document order keeping a running
index; whenever the index equals the next unpaired part's recorded index,
pair that part with the current node and advance to the next part; stop
when the walk or the part list is exhausted. -/
def cloneLoop : List DNode → Int → List Part → List (Part × DNode)
  | [], _, _ => []
  | _ :: _, _, [] => []
  | n :: ns, idx, p :: ps =>
      let idx1 := idx + 1
      if idx1 = p.index then (p, n) :: cloneLoop ns idx1 ps
      else cloneLoop ns idx1 (p :: ps)

/-- `TemplateInstance._clone` applied to a template: deep-cloning
(`document.importNode(..., true)`) preserves the fragment exactly, so the
pairing walk runs over the canonical walk of the template's own fragment,
with the index starting at `-1`. -/
def clonePairs (frag : List DNode) (parts : List Part) : List (Part × DNode) :=
  cloneLoop (walkForest frag) (-1) parts

/-- The number of attributes whose value contains the marker token. -/
def markerAttrCount (attrs : List (String × String)) : Nat :=
  (attrs.filter fun nv => (jsSplit nv.2).length > 1).length

mutual

/-- No element in this subtree carries more than one marker-bearing
attribute. -/
def okTree : DNode → Bool
  | .text _ => true
  | .element _ attrs cs => Nat.ble (markerAttrCount attrs) 1 && okForest cs

/-- The fragment condition under which part positions are strictly
increasing: no element anywhere carries more than one marker-bearing
attribute. -/
def okForest : List DNode → Bool
  | [] => true
  | n :: ns => okTree n && okForest ns

end

/-- The alternating replacement sequence for a split text node: a literal
text node per segment with an empty placeholder text node between
adjacent segments. -/
def altNodes : List String → List DNode
  | [] => []
  | [s] => [.text s]
  | s :: s2 :: rest => .text s :: .text "" :: altNodes (s2 :: rest)

/-- The arithmetic progression of node-part indices recorded for one split
text node: `k` parts at `v + 1, v + 3, v + 5, ...`. -/
def textPartsFrom (v : Int) : Nat → List Part
  | 0 => []
  | k + 1 => .node (v + 1) :: textPartsFrom (v + 2) k

/-- Position-correctness of a recorded part list against a walk sequence
whose first node has position `b`: every part's index is in range and the
node at that walk position has the part's kind. -/
def partsOkAt (b : Int) (ws : List DNode) (ps : List Part) : Prop :=
  ∀ p ∈ ps, b ≤ p.index ∧ p.index < b + ws.length ∧
    ∃ n, ws[(p.index - b).toNat]? = some n ∧ kindMatch p n = true

/-! ### Basic facts about the walk and the compiled parts -/

theorem walkForest_append (a b : List DNode) :
    walkForest (a ++ b) = walkForest a ++ walkForest b := by
  induction a with
  | nil => rfl
  | cons n ns ih => simp [walkForest, ih]

theorem walkForest_altNodes (ss : List String) :
    walkForest (altNodes ss) = altNodes ss := by
  induction ss with
  | nil => rfl
  | cons s rest ih =>
      cases rest with
      | nil => rfl
      | cons s2 rest2 => simpa [altNodes, walkForest, walkTree] using ih

theorem pairwise_of_all {α : Type} {R : α → α → Prop} {l : List α}
    (h : ∀ p ∈ l, ∀ q ∈ l, R p q) : l.Pairwise R := by
  induction l with
  | nil => exact List.Pairwise.nil
  | cons a l ih =>
      exact List.Pairwise.cons (fun q hq => h a (by simp) q (by simp [hq]))
        (ih fun p hp q hq => h p (by simp [hp]) q (by simp [hq]))

theorem pairwise_of_short {α : Type} {R : α → α → Prop} {l : List α}
    (h : l.length ≤ 1) : l.Pairwise R := by
  match l, h with
  | [], _ => exact List.Pairwise.nil
  | [a], _ => exact List.pairwise_singleton R a

theorem partsOkAt_nil (b : Int) (ws : List DNode) : partsOkAt b ws [] := by
  intro p hp
  simp at hp

theorem partsOkAt_append {b : Int} {ws1 ws2 : List DNode} {ps1 ps2 : List Part}
    (h1 : partsOkAt b ws1 ps1) (h2 : partsOkAt (b + ws1.length) ws2 ps2) :
    partsOkAt b (ws1 ++ ws2) (ps1 ++ ps2) := by
  intro p hp
  rcases List.mem_append.1 hp with hp | hp
  · obtain ⟨h, h', n, hn, hk⟩ := h1 p hp
    refine ⟨h, by simp only [List.length_append]; push_cast; omega, n, ?_, hk⟩
    rw [List.getElem?_append_left (by omega)]
    exact hn
  · obtain ⟨h, h', n, hn, hk⟩ := h2 p hp
    refine ⟨by omega, by simp only [List.length_append]; push_cast; omega, n, ?_, hk⟩
    rw [List.getElem?_append_right (by omega)]
    have : (p.index - b).toNat - ws1.length = (p.index - (b + ws1.length)).toNat := by omega
    rw [this]
    exact hn

theorem partsOkAt_mono {b : Int} {ws : List DNode} {ps1 ps2 : List Part}
    (hsub : ∀ p ∈ ps2, p ∈ ps1) (h : partsOkAt b ws ps1) : partsOkAt b ws ps2 :=
  fun p hp => h p (hsub p hp)

theorem attrParts_mem {attrs : List (String × String)} {idx : Int} {p : Part}
    (hp : p ∈ attrParts attrs idx) :
    p.index = idx ∧ ∃ nm ss, p = Part.attr nm idx ss := by
  simp only [attrParts, List.mem_filterMap] at hp
  obtain ⟨a, _, hmk⟩ := hp
  by_cases hc : (jsSplit a.2).length > 1
  · simp only [hc, if_pos] at hmk
    cases hmk
    exact ⟨rfl, a.1, jsSplit a.2, rfl⟩
  · simp [hc] at hmk

theorem attrParts_eq_map_filter (attrs : List (String × String)) (idx : Int) :
    attrParts attrs idx
      = (attrs.filter fun nv => (jsSplit nv.2).length > 1).map
          (fun nv => Part.attr nv.1 idx (jsSplit nv.2)) := by
  induction attrs with
  | nil => rfl
  | cons a rest ih =>
      by_cases hc : (jsSplit a.2).length > 1
      · simp [attrParts, List.filterMap_cons, List.filter_cons, hc, ih,
          attrParts] at ih ⊢
        exact ih
      · simp [attrParts, List.filterMap_cons, List.filter_cons, hc, ih,
          attrParts] at ih ⊢
        exact ih

theorem attrParts_length (attrs : List (String × String)) (idx : Int) :
    (attrParts attrs idx).length = markerAttrCount attrs := by
  rw [attrParts_eq_map_filter, List.length_map, markerAttrCount]

theorem textPartsFrom_mem {v : Int} {k : Nat} {p : Part}
    (hp : p ∈ textPartsFrom v k) : ∃ i : Nat, i < k ∧ p = Part.node (v + 1 + 2 * i) := by
  induction k generalizing v with
  | zero => simp [textPartsFrom] at hp
  | succ k ih =>
      simp only [textPartsFrom, List.mem_cons] at hp
      rcases hp with h | h
      · exact ⟨0, by omega, by simpa using h⟩
      · obtain ⟨i, hi, he⟩ := ih h
        exact ⟨i + 1, by omega, by rw [he]; congr 1; push_cast; ring⟩

theorem textPartsFrom_length (v : Int) (k : Nat) : (textPartsFrom v k).length = k := by
  induction k generalizing v with
  | zero => rfl
  | succ k ih => simp [textPartsFrom, ih]

theorem textPartsFrom_pairwise (v : Int) (k : Nat) :
    (textPartsFrom v k).Pairwise (fun p q => p.index < q.index) := by
  induction k generalizing v with
  | zero => exact List.Pairwise.nil
  | succ k ih =>
      refine List.Pairwise.cons ?_ (ih (v + 2))
      intro q hq
      obtain ⟨i, _, he⟩ := textPartsFrom_mem hq
      simp [he, Part.index]
      omega

theorem parseTextStrings_spec (ss : List String) (v : Int) (h : ss ≠ []) :
    (parseTextStrings v ss).1 = altNodes ss ∧
    (parseTextStrings v ss).2.1 = textPartsFrom v (ss.length - 1) ∧
    (parseTextStrings v ss).2.2 = v + (altNodes ss).length ∧
    (altNodes ss).length = 2 * ss.length - 1 := by
  induction ss generalizing v with
  | nil => exact absurd rfl h
  | cons s rest ih =>
      cases rest with
      | nil => simp [parseTextStrings, altNodes, textPartsFrom]
      | cons s2 rest2 =>
          obtain ⟨h1, h2, h3, h4⟩ := ih (v + 2) (by simp)
          refine ⟨?_, ?_, ?_, ?_⟩
          · simp [parseTextStrings, altNodes, h1]
          · have : (s :: s2 :: rest2).length - 1 = ((s2 :: rest2).length - 1) + 1 := by
              simp
            rw [this]
            simp [parseTextStrings, textPartsFrom, h2]
          · simp [parseTextStrings, altNodes, h3, h4]
            ring
          · simp [altNodes, h4]
            omega

theorem parseTextStrings_partsOk (ss : List String) (v : Int) (h : ss ≠ []) :
    partsOkAt v (altNodes ss) (textPartsFrom v (ss.length - 1)) := by
  induction ss generalizing v with
  | nil => exact absurd rfl h
  | cons s rest ih =>
      cases rest with
      | nil => simpa [altNodes, textPartsFrom] using partsOkAt_nil v _
      | cons s2 rest2 =>
          have hrec := ih (v + 2) (by simp)
          have hhead : partsOkAt v [DNode.text s, DNode.text ""] [Part.node (v + 1)] := by
            intro p hp
            simp only [List.mem_singleton] at hp
            subst hp
            refine ⟨by simp [Part.index], by simp [Part.index], DNode.text "", ?_, rfl⟩
            have : ((Part.node (v + 1)).index - v).toNat = 1 := by
              simp [Part.index]
            rw [this]
            rfl
          have happ := partsOkAt_append hhead (by simpa using hrec)
          have hn : altNodes (s :: s2 :: rest2)
              = [DNode.text s, DNode.text ""] ++ altNodes (s2 :: rest2) := by
            simp [altNodes]
          have hp : textPartsFrom v ((s :: s2 :: rest2).length - 1)
              = [Part.node (v + 1)] ++ textPartsFrom (v + 2) ((s2 :: rest2).length - 1) := by
            have : (s :: s2 :: rest2).length - 1 = ((s2 :: rest2).length - 1) + 1 := by simp
            rw [this]
            simp [textPartsFrom]
          rw [hn, hp]
          exact happ

/-! ### Correctness of the compiled part positions

The main invariant of `Template._parse`: the final index equals the initial
index plus the number of walked nodes of the output, every recorded part's
index points (relative to the walk of the output) at a node of the part's
kind, and the recorded indices are non-decreasing — strictly increasing
when no element carries two marker-bearing attributes. -/

mutual

theorem parseNode_spec (n : DNode) (v : Int) :
    (parseNode n v).2.2 = v + (walkForest (parseNode n v).1).length ∧
    partsOkAt (v + 1) (walkForest (parseNode n v).1) (parseNode n v).2.1 ∧
    (parseNode n v).2.1.Pairwise (fun p q => p.index ≤ q.index) ∧
    (okTree n = true → (parseNode n v).2.1.Pairwise (fun p q => p.index < q.index)) := by
  match n with
  | .text s =>
      by_cases hs : (jsSplit s).length > 1
      · have hne : jsSplit s ≠ [] := by
          intro h
          rw [h] at hs
          simp at hs
        obtain ⟨h1, h2, h3, _⟩ := parseTextStrings_spec (jsSplit s) (v + 1) hne
        have hok := parseTextStrings_partsOk (jsSplit s) (v + 1) hne
        have hpw := textPartsFrom_pairwise (v + 1) ((jsSplit s).length - 1)
        refine ⟨?_, ?_, ?_, ?_⟩
        · simp only [parseNode, hs, if_pos, h1, h3]
          rw [walkForest_altNodes]
          omega
        · simp only [parseNode, hs, if_pos, h1, h2]
          rw [walkForest_altNodes]
          exact hok
        · simp only [parseNode, hs, if_pos, h2]
          exact hpw.imp (fun h => le_of_lt h)
        · intro _
          simp only [parseNode, hs, if_pos, h2]
          exact hpw
      · refine ⟨?_, ?_, ?_, ?_⟩
        · simp [parseNode, hs, walkForest, walkTree]
        · simp only [parseNode, hs, if_neg]
          exact partsOkAt_nil _ _
        · simp [parseNode, hs]
        · intro _
          simp [parseNode, hs]
  | .element t attrs cs =>
      obtain ⟨h1, h2, h3, h4⟩ := parseNodes_spec cs (v + 1)
      have hwalk : walkForest (parseNode (.element t attrs cs) v).1
          = DNode.element t attrs (parseNodes cs (v + 1)).1
              :: walkForest (parseNodes cs (v + 1)).1 := by
        simp [parseNode, walkForest, walkTree]
      have haps : partsOkAt (v + 1)
          [DNode.element t attrs (parseNodes cs (v + 1)).1]
          (attrParts attrs (v + 1)) := by
        intro p hp
        obtain ⟨hidx, nm, ss, hps⟩ := attrParts_mem hp
        refine ⟨le_of_eq hidx.symm, by simp [hidx],
          DNode.element t attrs (parseNodes cs (v + 1)).1, ?_, ?_⟩
        · rw [hidx]
          simp
        · rw [hps]
          rfl
      have hcomp := partsOkAt_append haps (by simpa using h2)
      have hbound : ∀ p ∈ (parseNodes cs (v + 1)).2.1, v + 2 ≤ p.index := by
        intro p hp
        have := (h2 p hp).1
        omega
      have hwsing : walkForest [DNode.element t attrs (parseNodes cs (v + 1)).1]
          = [DNode.element t attrs (parseNodes cs (v + 1)).1]
              ++ walkForest (parseNodes cs (v + 1)).1 := by
        simp [walkForest, walkTree]
      refine ⟨?_, ?_, ?_, ?_⟩
      · simp only [parseNode, hwsing]
        simp only [List.length_append, List.length_singleton]
        push_cast
        omega
      · simp only [parseNode, hwsing]
        exact hcomp
      · simp only [parseNode]
        rw [List.pairwise_append]
        refine ⟨?_, h3, ?_⟩
        · refine pairwise_of_all fun p hp q hq => ?_
          rw [(attrParts_mem hp).1, (attrParts_mem hq).1]
        · intro p hp q hq
          rw [(attrParts_mem hp).1]
          have := hbound q hq
          omega
      · intro hok
        simp only [okTree, Bool.and_eq_true, Nat.ble_eq] at hok
        simp only [parseNode]
        rw [List.pairwise_append]
        refine ⟨?_, h4 hok.2, ?_⟩
        · refine pairwise_of_short ?_
          rw [attrParts_length]
          exact hok.1
        · intro p hp q hq
          rw [(attrParts_mem hp).1]
          have := hbound q hq
          omega

theorem parseNodes_spec (ns : List DNode) (v : Int) :
    (parseNodes ns v).2.2 = v + (walkForest (parseNodes ns v).1).length ∧
    partsOkAt (v + 1) (walkForest (parseNodes ns v).1) (parseNodes ns v).2.1 ∧
    (parseNodes ns v).2.1.Pairwise (fun p q => p.index ≤ q.index) ∧
    (okForest ns = true → (parseNodes ns v).2.1.Pairwise (fun p q => p.index < q.index)) := by
  match ns with
  | [] =>
      refine ⟨by simp [parseNodes, walkForest], ?_, by simp [parseNodes], ?_⟩
      · simp only [parseNodes]
        exact partsOkAt_nil _ _
      · intro _
        simp [parseNodes]
  | n :: rest =>
      obtain ⟨h1, h2, h3, h4⟩ := parseNode_spec n v
      obtain ⟨g1, g2, g3, g4⟩ := parseNodes_spec rest (parseNode n v).2.2
      have hwalk : walkForest (parseNodes (n :: rest) v).1
      = walkForest (parseNode n v).1 ++ walkForest (parseNodes rest (parseNode n v).2.2).1 := by
        simp only [parseNodes]
        rw [walkForest_append]
      have hbound1 : ∀ p ∈ (parseNode n v).2.1,
          p.index < v + 1 + (walkForest (parseNode n v).1).length := by
        intro p hp
        exact ((h2 p hp).2).1
      have hbound2 : ∀ p ∈ (parseNodes rest (parseNode n v).2.2).2.1,
          (parseNode n v).2.2 + 1 ≤ p.index := by
        intro p hp
        exact (g2 p hp).1
      refine ⟨?_, ?_, ?_, ?_⟩
      · simp only [parseNodes] at *
        rw [hwalk] at *
        simp only [List.length_append] at *
        push_cast at *
        omega
      · simp only [parseNodes]
        rw [walkForest_append]
        have g2' : partsOkAt (v + 1 + ((walkForest (parseNode n v).1).length : Int))
            (walkForest (parseNodes rest (parseNode n v).2.2).1)
            (parseNodes rest (parseNode n v).2.2).2.1 := by
          have heq : v + 1 + ((walkForest (parseNode n v).1).length : Int)
              = (parseNode n v).2.2 + 1 := by omega
          rw [heq]
          exact g2
        exact partsOkAt_append h2 g2'
      · simp only [parseNodes]
        rw [List.pairwise_append]
        refine ⟨h3, g3, ?_⟩
        intro p hp q hq
        have := hbound1 p hp
        have := hbound2 q hq
        omega
      · intro hok
        simp only [okForest, Bool.and_eq_true] at hok
        simp only [parseNodes]
        rw [List.pairwise_append]
        refine ⟨h4 hok.1, g4 hok.2, ?_⟩
        intro p hp q hq
        have := hbound1 p hp
        have := hbound2 q hq
        omega

end

/-! ### Correctness of the re-pairing walk of `_clone` -/

/-- When the remaining parts' indices are strictly increasing and each lies
within the remaining walk (whose first node has position `b + 1`), the
pairing loop pairs every part with the walk node at its recorded index. -/
theorem cloneLoop_spec (ws : List DNode) : ∀ (b : Int) (ps : List Part),
    ps.Pairwise (fun p q => p.index < q.index) →
    partsOkAt (b + 1) ws ps →
    cloneLoop ws b ps
      = ps.map fun p => (p, (ws[(p.index - (b + 1)).toNat]?).getD (DNode.text "")) := by
  induction ws with
  | nil =>
      intro b ps _ hok
      cases ps with
      | nil => rfl
      | cons p ps =>
          obtain ⟨h1, h2, -⟩ := hok p (by simp)
          simp at h2
          omega
  | cons n ns ih =>
      intro b ps hpw hok
      cases ps with
      | nil => rfl
      | cons p ps =>
          obtain ⟨hlow, hhigh, m, hm, hk⟩ := hok p (by simp)
          by_cases heq : b + 1 = p.index
          · have hm0 : (p.index - (b + 1)).toNat = 0 := by omega
            rw [hm0] at hm
            simp at hm
            have htail : partsOkAt (b + 1 + 1) ns ps := by
              intro q hq
              obtain ⟨l1, l2, mq, hmq, hkq⟩ := hok q (by simp [hq])
              have hql : p.index < q.index :=
                (List.pairwise_cons.1 hpw).1 q hq
              refine ⟨by omega, by simp at l2 ⊢; omega, mq, ?_, hkq⟩
              have hsh : (q.index - (b + 1)).toNat = (q.index - (b + 1 + 1)).toNat + 1 := by
                omega
              rw [hsh] at hmq
              simpa using hmq
            have hrec := ih (b + 1) ps (List.pairwise_cons.1 hpw).2 htail
            simp only [cloneLoop, if_pos heq]
            rw [hrec]
            have hmap : ∀ q ∈ ps,
                (ns[(q.index - (b + 1 + 1)).toNat]?).getD (DNode.text "")
                  = ((n :: ns)[(q.index - (b + 1)).toNat]?).getD (DNode.text "") := by
              intro q hq
              have hql : p.index < q.index := (List.pairwise_cons.1 hpw).1 q hq
              have hsh : (q.index - (b + 1)).toNat = (q.index - (b + 1 + 1)).toNat + 1 := by
                omega
              rw [hsh]
              simp
            rw [List.map_congr_left fun q hq => by rw [hmap q hq]]
            have hhd : ((n :: ns)[(p.index - (b + 1)).toNat]?).getD (DNode.text "") = n := by
              rw [hm0]
              simp
            simp only [List.map_cons]
            rw [hhd]
          · have hlt : b + 1 < p.index := lt_of_le_of_ne hlow (fun h => heq h)
            have htail : partsOkAt (b + 1 + 1) ns (p :: ps) := by
              intro q hq
              obtain ⟨l1, l2, mq, hmq, hkq⟩ := hok q hq
              have hql : p.index ≤ q.index := by
                rcases List.mem_cons.1 hq with h | h
                · rw [h]
                · exact le_of_lt ((List.pairwise_cons.1 hpw).1 q h)
              refine ⟨by omega, by simp at l2 ⊢; omega, mq, ?_, hkq⟩
              have hsh : (q.index - (b + 1)).toNat = (q.index - (b + 1 + 1)).toNat + 1 := by
                omega
              rw [hsh] at hmq
              simpa using hmq
            have hrec := ih (b + 1) (p :: ps) hpw htail
            simp only [cloneLoop, if_neg heq]
            rw [hrec]
            refine List.map_congr_left fun q hq => ?_
            obtain ⟨l1, _, _⟩ := htail q hq
            have hsh : (q.index - (b + 1)).toNat = (q.index - (b + 1 + 1)).toNat + 1 := by
              omega
            rw [hsh]
            simp

/-! ### Positions of the alternating replacement nodes -/

theorem altNodes_even (ss : List String) : ∀ i : Nat, i < ss.length →
    (altNodes ss)[2 * i]? = some (DNode.text (ss.getD i "")) := by
  induction ss with
  | nil => intro i hi; simp at hi
  | cons s rest ih =>
      intro i hi
      cases rest with
      | nil =>
          cases i with
          | zero => simp [altNodes]
          | succ j =>
              simp only [List.length_cons, List.length_nil] at hi
              omega
      | cons s2 rest2 =>
          cases i with
          | zero => simp [altNodes]
          | succ j =>
              have hj : j < (s2 :: rest2).length := by simpa using hi
              have := ih j hj
              have hsh : 2 * (j + 1) = (2 * j) + 1 + 1 := by ring
              rw [hsh]
              simpa [altNodes] using this

theorem altNodes_odd (ss : List String) : ∀ i : Nat, i + 1 < ss.length →
    (altNodes ss)[2 * i + 1]? = some (DNode.text "") := by
  induction ss with
  | nil => intro i hi; simp at hi
  | cons s rest ih =>
      intro i hi
      cases rest with
      | nil => simp at hi
      | cons s2 rest2 =>
          cases i with
          | zero => simp [altNodes]
          | succ j =>
              have hj : j + 1 < (s2 :: rest2).length := by simpa using hi
              have := ih j hj
              have hsh : 2 * (j + 1) + 1 = (2 * j + 1) + 1 + 1 := by ring
              rw [hsh]
              simpa [altNodes] using this

/-! ### Claim C2 — part position uniqueness and order -/

/-- C2 counterexample: an element carrying two marker-bearing attributes
yields two parts that share the element's walk position `0`, so part
positions are not unique, refuting the claim precisely in the case it
singles out. -/
theorem c2_counterexample :
    (parseFragment
        [DNode.element "div" [("a", "\x7b\x7b\x7d\x7d"), ("b", "\x7b\x7b\x7d\x7d")] []]).2.1
      = [Part.attr "a" 0 ["", ""], Part.attr "b" 0 ["", ""]] ∧
    ¬ ((parseFragment
        [DNode.element "div" [("a", "\x7b\x7b\x7d\x7d"), ("b", "\x7b\x7b\x7d\x7d")] []]).2.1.map
          Part.index).Nodup := by
  constructor
  · decide
  · decide

/-- C2 (amended): for every compiled template the parts are stored in
non-decreasing position order; and when no element carries more than one
marker-bearing attribute the positions are strictly increasing, hence
unique.  As compiled, every attribute part of one element is recorded at
that element's own walk position, so an element with two marker-bearing
attributes yields two parts with equal positions. -/
theorem c2_positions_amended (frag : List DNode) :
    (parseFragment frag).2.1.Pairwise (fun p q => p.index ≤ q.index) ∧
    (okForest frag = true →
      (parseFragment frag).2.1.Pairwise (fun p q => p.index < q.index)) :=
  ⟨(parseNodes_spec frag (-1)).2.2.1, fun h => (parseNodes_spec frag (-1)).2.2.2 h⟩

/-- C2 witness: the amended theorem evaluated on a concrete fragment with
one marker-bearing attribute and one split text node. -/
theorem c2_witness :
    okForest [DNode.element "div" [("class", "a\x7b\x7b\x7d\x7db")]
        [DNode.text "x\x7b\x7b\x7d\x7dy"]] = true ∧
    (parseFragment [DNode.element "div" [("class", "a\x7b\x7b\x7d\x7db")]
        [DNode.text "x\x7b\x7b\x7d\x7dy"]]).2.1.Pairwise (fun p q => p.index < q.index) :=
  ⟨by decide,
    (c2_positions_amended [DNode.element "div" [("class", "a\x7b\x7b\x7d\x7db")]
        [DNode.text "x\x7b\x7b\x7d\x7dy"]]).2 (by decide)⟩

/-! ### Claim C1 — binding re-pair correctness -/

/-- C1 counterexample: on a template whose first element carries two
marker-bearing attributes, the compiled part list has three parts but the
re-pairing walk of `_clone` pairs only the first: when the next expected
part's position has already been passed the loop never advances again, so
the second attribute part and even the later text part are dropped.  The
resulting list does not have one entry per part. -/
theorem c1_counterexample :
    ((parseFragment [DNode.element "div" [("a", "\x7b\x7b\x7d\x7d"), ("b", "\x7b\x7b\x7d\x7d")] [],
        DNode.text "x\x7b\x7b\x7d\x7dy"]).2.1).length = 3 ∧
    (clonePairs
        (parseFragment [DNode.element "div" [("a", "\x7b\x7b\x7d\x7d"), ("b", "\x7b\x7b\x7d\x7d")] [],
          DNode.text "x\x7b\x7b\x7d\x7dy"]).1
        (parseFragment [DNode.element "div" [("a", "\x7b\x7b\x7d\x7d"), ("b", "\x7b\x7b\x7d\x7d")] [],
          DNode.text "x\x7b\x7b\x7d\x7dy"]).2.1).length = 1 := by
  constructor
  · decide
  · decide

/-- C1 (amended): for every compiled template with at least one part, in
which no element carries more than one marker-bearing attribute (so part
positions are strictly increasing), re-walking the clone in canonical
document order pairs each part, in stored order, with the node whose walk
position equals the part's recorded position; the pairing has exactly one
entry per part, and each paired node's kind matches its part's kind. -/
theorem c1_binding_repair_amended (frag : List DNode)
    (hok : okForest frag = true)
    (_hne : (parseFragment frag).2.1 ≠ []) :
    clonePairs (parseFragment frag).1 (parseFragment frag).2.1
      = (parseFragment frag).2.1.map
          (fun p => (p,
            ((walkForest (parseFragment frag).1)[p.index.toNat]?).getD (DNode.text ""))) ∧
    (clonePairs (parseFragment frag).1 (parseFragment frag).2.1).length
        = (parseFragment frag).2.1.length ∧
    ∀ pr ∈ clonePairs (parseFragment frag).1 (parseFragment frag).2.1,
      kindMatch pr.1 pr.2 = true := by
  obtain ⟨_, h2, _, h4⟩ := parseNodes_spec frag (-1)
  have hpw := h4 hok
  have hmain := cloneLoop_spec (walkForest (parseFragment frag).1) (-1)
    (parseFragment frag).2.1 hpw h2
  have hsimpl : ∀ p : Part, (p.index - ((-1 : Int) + 1)).toNat = p.index.toNat := by
    intro p
    norm_num
  have heq : clonePairs (parseFragment frag).1 (parseFragment frag).2.1
      = (parseFragment frag).2.1.map
          (fun p => (p,
            ((walkForest (parseFragment frag).1)[p.index.toNat]?).getD (DNode.text ""))) := by
    rw [clonePairs, hmain]
    exact List.map_congr_left fun p _ => by rw [hsimpl p]
  refine ⟨heq, by rw [heq, List.length_map], ?_⟩
  intro pr hpr
  rw [heq] at hpr
  obtain ⟨p, hp, hpe⟩ := List.mem_map.1 hpr
  obtain ⟨_, _, m, hm, hk⟩ := h2 p hp
  rw [hsimpl p] at hm
  have hm' : (walkForest (parseFragment frag).1)[p.index.toNat]? = some m := hm
  rw [← hpe]
  simp only [hm', Option.getD_some]
  exact hk

/-- C1 witness: the amended theorem evaluated on a concrete two-part
template (one attribute part, one node part). -/
theorem c1_witness :
    okForest [DNode.element "p" [("id", "x\x7b\x7b\x7d\x7d")] [DNode.text "u\x7b\x7b\x7d\x7dw"]]
        = true ∧
    (parseFragment [DNode.element "p" [("id", "x\x7b\x7b\x7d\x7d")]
        [DNode.text "u\x7b\x7b\x7d\x7dw"]]).2.1 ≠ [] ∧
    (clonePairs
        (parseFragment [DNode.element "p" [("id", "x\x7b\x7b\x7d\x7d")]
          [DNode.text "u\x7b\x7b\x7d\x7dw"]]).1
        (parseFragment [DNode.element "p" [("id", "x\x7b\x7b\x7d\x7d")]
          [DNode.text "u\x7b\x7b\x7d\x7dw"]]).2.1).length
      = (parseFragment [DNode.element "p" [("id", "x\x7b\x7b\x7d\x7d")]
          [DNode.text "u\x7b\x7b\x7d\x7dw"]]).2.1.length :=
  ⟨by decide, by decide,
    (c1_binding_repair_amended
      [DNode.element "p" [("id", "x\x7b\x7b\x7d\x7d")] [DNode.text "u\x7b\x7b\x7d\x7dw"]]
      (by decide) (by decide)).2.1⟩

/-! ### Claim C8 — compiler text-node splitting -/

/-- C8: a text node containing `k ≥ 1` markers is replaced, in place and
in original order, by the alternating sequence of `k + 1` literal text
nodes and `k` empty placeholder text nodes; exactly `k` node parts are
recorded, one per placeholder, at the arithmetic progression of indices
`v + 2, v + 4, ...` continuing the monotone numbering; and globally every
recorded part of a compiled fragment — including parts recorded after such
a splice — points at the node of its kind at exactly its recorded position
in the canonical walk of the final fragment. -/
theorem c8_text_splitting :
    (∀ (s : String) (v : Int), (jsSplit s).length > 1 →
      parseNode (DNode.text s) v
        = (altNodes (jsSplit s),
           textPartsFrom (v + 1) ((jsSplit s).length - 1),
           v + (altNodes (jsSplit s)).length) ∧
      (altNodes (jsSplit s)).length = 2 * (jsSplit s).length - 1 ∧
      (textPartsFrom (v + 1) ((jsSplit s).length - 1)).length = (jsSplit s).length - 1 ∧
      (∀ i : Nat, i < (jsSplit s).length →
        (altNodes (jsSplit s))[2 * i]? = some (DNode.text ((jsSplit s).getD i ""))) ∧
      (∀ i : Nat, i + 1 < (jsSplit s).length →
        (altNodes (jsSplit s))[2 * i + 1]? = some (DNode.text "")) ∧
      (∀ q ∈ textPartsFrom (v + 1) ((jsSplit s).length - 1),
        ∃ i : Nat, i < (jsSplit s).length - 1 ∧ q = Part.node (v + 2 + 2 * i))) ∧
    (∀ frag : List DNode,
      partsOkAt 0 (walkForest (parseFragment frag).1) (parseFragment frag).2.1) := by
  constructor
  · intro s v hs
    have hne : jsSplit s ≠ [] := by
      intro h
      rw [h] at hs
      simp at hs
    obtain ⟨h1, h2, h3, h4⟩ := parseTextStrings_spec (jsSplit s) (v + 1) hne
    refine ⟨?_, h4, ?_, altNodes_even (jsSplit s), altNodes_odd (jsSplit s), ?_⟩
    · simp only [parseNode, hs, if_pos, h1, h2, h3]
      refine Prod.ext rfl (Prod.ext rfl ?_)
      simp
      omega
    · exact textPartsFrom_length (v + 1) ((jsSplit s).length - 1)
    · intro q hq
      obtain ⟨i, hi, he⟩ := textPartsFrom_mem hq
      exact ⟨i, hi, by rw [he]; congr 1; ring⟩
  · intro frag
    have h2 := (parseNodes_spec frag (-1)).2.1
    have : (-1 : Int) + 1 = 0 := by norm_num
    rw [this] at h2
    exact h2

/-- C8 witness: the splitting theorem evaluated on the text `u(marker)w`
at starting index `4`, and the global position-correctness instantiated on
a concrete fragment. -/
theorem c8_witness :
    (jsSplit "u\x7b\x7b\x7d\x7dw").length > 1 ∧
    parseNode (DNode.text "u\x7b\x7b\x7d\x7dw") 4
      = (altNodes (jsSplit "u\x7b\x7b\x7d\x7dw"),
         textPartsFrom (4 + 1) ((jsSplit "u\x7b\x7b\x7d\x7dw").length - 1),
         (4 : Int) + ((altNodes (jsSplit "u\x7b\x7b\x7d\x7dw")).length : Int)) :=
  ⟨by decide, ((c8_text_splitting.1 "u\x7b\x7b\x7d\x7dw" 4 (by decide)).1)⟩

/-! ## The update engine

The dynamic-value model and the state model for bound template instances.
The rendered tree owned by an instance is determined by its static clone
(fixed at binding time) plus the per-slot state below, so `update` is
modelled as a transformation of slot states; node identity is modelled by
ids, with a counter threaded through every function that allocates
(`new Text()`, cloning, sentinel creation). -/

/-- A compiled template as the update engine sees it.  Reference identity
(the reuse test `value.template !== templateInstance._template`) is
modelled by the `id` field: distinct Template objects carry distinct ids,
even when their parts are structurally equal. -/
structure Templ where
  id : Nat
  parts : List Part
deriving Repr, DecidableEq

/-- Dynamic values: plain strings, `undefined`, zero-argument callables
(`thunk none` throws when invoked, `thunk (some v)` returns `v`),
template results (`TemplateResult`: a template paired with its values),
and iterables (arrays). -/
inductive Value where
  | str (s : String)
  | undef
  | thunk (r : Option Value)
  | res (t : Templ) (values : List Value)
  | arr (items : List Value)
deriving Repr

mutual

/-- JavaScript string coercion (`'' + value`, `String(value)`) for the
modelled value shapes: strings are themselves; `undefined` prints
"undefined"; a function object coerces to its source text (a fixed
placeholder here — never the quoted string literal a thunk returns); a
TemplateResult is a plain object ("[object Object]"); an array coerces via
`Array.prototype.toString`, its elements joined by commas. -/
def jsToString : Value → String
  | .str s => s
  | .undef => "undefined"
  | .thunk _ => "function-source"
  | .res _ _ => "[object Object]"
  | .arr items => jsArrJoin items

/-- `Array.prototype.join(',')`: elements joined by commas, an `undefined`
element rendering empty. -/
def jsArrJoin : List Value → String
  | [] => ""
  | [.undef] => ""
  | [v] => jsToString v
  | .undef :: v2 :: rest => "," ++ jsArrJoin (v2 :: rest)
  | v :: v2 :: rest => jsToString v ++ "," ++ jsArrJoin (v2 :: rest)

end

/-- Assignment `node.textContent = value`: `textContent` is a nullable
DOMString, so `undefined` converts to null, which clears the text; every
other value coerces to a string. -/
def textSet : Value → String
  | .undef => ""
  | v => jsToString v

/-- `TemplateInstance.getValue` (source lines 238-248): while the value is
a zero-argument callable, invoke it; a throwing invocation is caught by
the `try/catch`, the error is reported (`console.error` — the `Bool`
component records that a report happened), and the function returns with
no value, i.e. JavaScript `undefined`.  The catch is why a throwing
deferred value can never propagate an exception out of `update()`: the
model returns normally in every case. -/
def getValue : Value → Value × Bool
  | .thunk none => (.undef, true)
  | .thunk (some v) => getValue v
  | v => (v, false)

/-- The attribute branch of `update` (source lines 209-216): starting from
the empty string, append each static segment and, between adjacent
segments, the next raw value coerced to text
(`text += values[valueIndex++]`; reading past the end of `values` yields
`undefined`).  The values are not passed through `getValue`. -/
def attrText : List String → List Value → String
  | [], _ => ""
  | [s], _ => s
  | s :: s2 :: rest, vals =>
      s ++ jsToString (vals.headD .undef) ++ attrText (s2 :: rest) vals.tail

mutual

/-- A live template instance: the identity of its template, its sentinel
bounds (`_startNode`/`_endNode` ids — set for nested instances created by
`_getFragment`), and the state of its (Part, node) slots in order. -/
inductive Inst where
  | mk (tmplId : Nat) (bounds : Option (Nat × Nat)) (slots : List Slot)

/-- The state of one bound (Part, node) pair: an attribute slot records
the attribute name, the static segments, and the last written attribute
value (`none` = never written, the cloned marker text still present); a
node slot records its anchor text node's state. -/
inductive Slot where
  | attrS (name : String) (strings : List String) (written : Option String)
  | nodeS (st : NodeSt)

/-- The state of a node-part anchor text node: its id, its text content,
the slot occupancy record (`node.__templateInstance`), and the region of
siblings inserted after it by this slot, nearest first. -/
inductive NodeSt where
  | mk (anchorId : Nat) (text : String) (occ : Option Inst) (region : List Seg)

/-- One segment of a slot's inserted region: either a plain text node with
its own node-slot state (an iterable marker, or a stale sentinel left by
cleanup), or the sentinel-bounded range of the occupying nested instance
(start id, end id; the content between them is the occupant's rendering). -/
inductive Seg where
  | node (st : NodeSt)
  | range (s e : Nat)

end

def Inst.tmplId : Inst → Nat
  | .mk i _ _ => i

def Inst.bounds : Inst → Option (Nat × Nat)
  | .mk _ b _ => b

def Inst.slots : Inst → List Slot
  | .mk _ _ s => s

def NodeSt.anchorId : NodeSt → Nat
  | .mk a _ _ _ => a

def NodeSt.text : NodeSt → String
  | .mk _ t _ _ => t

def NodeSt.occ : NodeSt → Option Inst
  | .mk _ _ o _ => o

def NodeSt.region : NodeSt → List Seg
  | .mk _ _ _ r => r

def NodeSt.withText (st : NodeSt) (t : String) : NodeSt :=
  .mk st.anchorId t st.occ st.region

def NodeSt.withOcc (st : NodeSt) (o : Option Inst) : NodeSt :=
  .mk st.anchorId st.text o st.region

def NodeSt.withRegion (st : NodeSt) (r : List Seg) : NodeSt :=
  .mk st.anchorId st.text st.occ r

@[simp] theorem anchorId_mk (a : Nat) (t : String) (o : Option Inst) (r : List Seg) :
    (NodeSt.mk a t o r).anchorId = a := rfl

@[simp] theorem text_mk (a : Nat) (t : String) (o : Option Inst) (r : List Seg) :
    (NodeSt.mk a t o r).text = t := rfl

@[simp] theorem occ_mk (a : Nat) (t : String) (o : Option Inst) (r : List Seg) :
    (NodeSt.mk a t o r).occ = o := rfl

@[simp] theorem region_mk (a : Nat) (t : String) (o : Option Inst) (r : List Seg) :
    (NodeSt.mk a t o r).region = r := rfl

@[simp] theorem tmplId_mk (i : Nat) (b : Option (Nat × Nat)) (s : List Slot) :
    (Inst.mk i b s).tmplId = i := rfl

@[simp] theorem bounds_mk (i : Nat) (b : Option (Nat × Nat)) (s : List Slot) :
    (Inst.mk i b s).bounds = b := rfl

@[simp] theorem slots_mk (i : Nat) (b : Option (Nat × Nat)) (s : List Slot) :
    (Inst.mk i b s).slots = s := rfl

@[simp] theorem anchorId_withText (st : NodeSt) (t : String) :
    (st.withText t).anchorId = st.anchorId := rfl

@[simp] theorem text_withText (st : NodeSt) (t : String) : (st.withText t).text = t := rfl

@[simp] theorem occ_withText (st : NodeSt) (t : String) : (st.withText t).occ = st.occ := rfl

@[simp] theorem region_withText (st : NodeSt) (t : String) :
    (st.withText t).region = st.region := rfl

@[simp] theorem anchorId_withOcc (st : NodeSt) (o : Option Inst) :
    (st.withOcc o).anchorId = st.anchorId := rfl

@[simp] theorem text_withOcc (st : NodeSt) (o : Option Inst) :
    (st.withOcc o).text = st.text := rfl

@[simp] theorem occ_withOcc (st : NodeSt) (o : Option Inst) : (st.withOcc o).occ = o := rfl

@[simp] theorem region_withOcc (st : NodeSt) (o : Option Inst) :
    (st.withOcc o).region = st.region := rfl

@[simp] theorem anchorId_withRegion (st : NodeSt) (r : List Seg) :
    (st.withRegion r).anchorId = st.anchorId := rfl

@[simp] theorem text_withRegion (st : NodeSt) (r : List Seg) :
    (st.withRegion r).text = st.text := rfl

@[simp] theorem occ_withRegion (st : NodeSt) (r : List Seg) :
    (st.withRegion r).occ = st.occ := rfl

@[simp] theorem region_withRegion (st : NodeSt) (r : List Seg) :
    (st.withRegion r).region = r := rfl

/-- The cleanup condition of source line 252: a previous instance occupies
the slot, and the incoming value is not a TemplateResult (`vTmpl = none`)
or is a TemplateResult of a different template (`vTmpl = some tid`). -/
def needsCleanup (st : NodeSt) (vTmpl : Option Nat) : Bool :=
  match st.occ, vTmpl with
  | none, _ => false
  | some _, none => true
  | some inst, some tid => inst.tmplId != tid

/-- `TemplateInstance._cleanup` (source lines 274-287) as it acts on a
slot: in every reachable state the occupant's sentinel-bounded range is
the first segment after the anchor (it was inserted at
`node.nextSibling`, and nothing is inserted while the occupant is
recorded).  The sibling walk removes the start sentinel and every node of
the range before the end sentinel, and stops as soon as the next sibling
is the end sentinel — so the end sentinel itself survives as a plain empty
text node; the occupancy record is cleared (`__templateInstance =
undefined`).  The verbatim sibling-walk loop is `cleanupRun` below, proved
against this segment-level action in the C5 theorems. -/
def cleanupSt (st : NodeSt) : NodeSt :=
  match st.region with
  | .range _ e :: rest =>
      NodeSt.mk st.anchorId st.text none (.node (NodeSt.mk e "" none []) :: rest)
  | r => NodeSt.mk st.anchorId st.text none r

theorem cleanupSt_anchorId (st : NodeSt) : (cleanupSt st).anchorId = st.anchorId := by
  rcases st with ⟨a, t, o, r⟩
  rcases r with _ | ⟨sg, rest⟩
  · simp [cleanupSt]
  · rcases sg with st2 | ⟨x, y⟩ <;> simp [cleanupSt]

theorem cleanupSt_text (st : NodeSt) : (cleanupSt st).text = st.text := by
  rcases st with ⟨a, t, o, r⟩
  rcases r with _ | ⟨sg, rest⟩
  · simp [cleanupSt]
  · rcases sg with st2 | ⟨x, y⟩ <;> simp [cleanupSt]

/-- The clone-and-pair step of nested-instance creation
(`new TemplateInstance(template)` + `_getFragment`'s `_clone`): one slot
per compiled part, in order; each node part's placeholder is cloned as a
fresh empty anchor text node (fresh id from the counter); each attribute
slot starts unwritten. -/
def mkSlots : List Part → Nat → List Slot × Nat
  | [], c => ([], c)
  | .attr name _ strings :: ps, c =>
      let r := mkSlots ps c
      (.attrS name strings none :: r.1, r.2)
  | .node _ :: ps, c =>
      let r := mkSlots ps (c + 1)
      (.nodeS (NodeSt.mk c "" none []) :: r.1, r.2)

theorem sizeOf_drop_le (l : List Value) (n : Nat) : sizeOf (l.drop n) ≤ sizeOf l := by
  induction l generalizing n with
  | nil => cases n <;> simp
  | cons a l ih =>
      cases n with
      | zero => simp
      | succ n =>
          have := ih n
          simp only [List.drop_succ_cons]
          have hc : sizeOf (a :: l) = 1 + sizeOf a + sizeOf l := by simp
          omega

theorem getValue_fst_sizeOf (v : Value) : sizeOf (getValue v).1 ≤ sizeOf v := by
  match v with
  | .thunk none => simp [getValue]
  | .thunk (some w) =>
      have h1 := getValue_fst_sizeOf w
      have h2 : sizeOf w ≤ sizeOf (Value.thunk (some w)) := by
        simp
        omega
      simp only [getValue]
      omega
  | .str s => simp [getValue]
  | .undef => simp [getValue]
  | .res t vs => simp [getValue]
  | .arr vs => simp [getValue]

theorem headD_sizeOf_le (l : List Value) : sizeOf (l.headD .undef) ≤ sizeOf l := by
  cases l with
  | nil => simp [List.headD]
  | cons a l => simp [List.headD] <;> omega

theorem tail_sizeOf_le (l : List Value) : sizeOf l.tail ≤ sizeOf l := by
  cases l with
  | nil => simp
  | cons a l => simp <;> omega

theorem lex_of_le {a c b d : Nat} (h1 : a ≤ c) (h2 : b < d) :
    Prod.Lex (fun x y => x < y) (fun x y => x < y) (a, b) (c, d) := by
  rcases lt_or_eq_of_le h1 with h | h
  · exact Prod.Lex.left _ _ h
  · subst h
    exact Prod.Lex.right _ h2

theorem lex_of_lt {a c b d : Nat} (h1 : a < c) :
    Prod.Lex (fun x y => x < y) (fun x y => x < y) (a, b) (c, d) :=
  Prod.Lex.left _ _ h1

mutual

/-- `TemplateInstance.update` (source lines 203-236) over the instance's
slot list, consuming `values` left to right: an attribute slot consumes
`strings.length - 1` values and receives the rebuilt attribute string in
one `setAttribute` write; a node slot consumes one value, resolves it with
`getValue`, and renders it.  `c` is the fresh-node counter; reading past
the end of `values` yields `undefined`. -/
def updSlots : List Slot → List Value → Nat → List Slot × Nat
  | [], _, c => ([], c)
  | .attrS name strings _ :: rest, vals, c =>
      let text := attrText strings vals
      let r := updSlots rest (vals.drop (strings.length - 1)) c
      (.attrS name strings (some text) :: r.1, r.2)
  | .nodeS st :: rest, vals, c =>
      let v := (getValue (vals.headD .undef)).1
      let r1 := renderNodeValue v st c
      let r2 := updSlots rest vals.tail r1.2
      (.nodeS r1.1 :: r2.1, r2.2)
termination_by slots vals c => (sizeOf vals, slots.length + 2)
decreasing_by
· exact lex_of_le (sizeOf_drop_le vals _) (by simp)
· exact lex_of_le (le_trans (getValue_fst_sizeOf _) (headD_sizeOf_le vals)) (by omega)
· exact lex_of_le (tail_sizeOf_le vals) (by simp)

/-- The node-part branch of `update` (source lines 218-233): a resolved
value that is an iterable and not a string is expanded into a fresh
fragment holding one marker text node per item, each item rendered at its
marker by `_renderValue`; then the fragment is rendered onto the anchor —
this is the `DocumentFragment` case of `_renderValue` (lines 256-257),
inlined at its only call site: clean up a stale occupant, then insert the
fragment's children immediately after the anchor, leaving the anchor in
place.  Every other value goes to `_renderValue` directly. -/
def renderNodeValue : Value → NodeSt → Nat → NodeSt × Nat
  | .arr items, st, c =>
      let rf := renderItems items c
      let st1 := if (NodeSt.occ st).isSome then cleanupSt st else st
      (st1.withRegion (rf.1 ++ st1.region), rf.2)
  | v, st, c => renderValue v st c
termination_by v st c => (sizeOf v, 1)
decreasing_by
· exact lex_of_lt (by simp)
· exact Prod.Lex.right _ (by omega)

/-- The fragment construction of the iterable case (lines 224-229): for
each item, in iteration order, append a fresh marker text node and render
the item at it with `_renderValue` (items are not passed through
`getValue`). -/
def renderItems : List Value → Nat → List Seg × Nat
  | [], c => ([], c)
  | v :: vs, c =>
      let r1 := renderValue v (NodeSt.mk c "" none []) (c + 1)
      let r2 := renderItems vs r1.2
      (Seg.node r1.1 :: r2.1, r2.2)
termination_by vs c => (sizeOf vs, 0)
decreasing_by
· exact lex_of_lt (by simp <;> omega)
· exact lex_of_lt (by simp <;> omega)

/-- `TemplateInstance._renderValue` (source lines 250-272) for non-fragment
values.  A stale occupant (present while the value is not a TemplateResult
of the same template) is cleaned up first.  A TemplateResult whose
template is reference-identical to the occupant's reuses the occupant,
only updating it with the new values; otherwise the anchor's text is
cleared, a fresh nested instance is built (`_getFragment`: clone and pair
the parts, then bound the fragment with two fresh sentinel text nodes),
its range is inserted immediately after the anchor, and the instance is
updated with the result's values.  Every other value is assigned to the
anchor's text content. -/
def renderValue : Value → NodeSt → Nat → NodeSt × Nat
  | .res t tvals, st, c =>
      let st1 := if needsCleanup st (some t.id) then cleanupSt st else st
      match NodeSt.occ st with
      | some inst =>
          if t.id = Inst.tmplId inst then
            let r := updSlots (Inst.slots inst) tvals c
            (st1.withOcc (some (Inst.mk (Inst.tmplId inst) (Inst.bounds inst) r.1)), r.2)
          else
            let rm := mkSlots t.parts c
            let r := updSlots rm.1 tvals (rm.2 + 2)
            (((st1.withText "").withOcc
                (some (Inst.mk t.id (some (rm.2, rm.2 + 1)) r.1))).withRegion
              (Seg.range rm.2 (rm.2 + 1) :: st1.region), r.2)
      | none =>
          let rm := mkSlots t.parts c
          let r := updSlots rm.1 tvals (rm.2 + 2)
          (((st1.withText "").withOcc
              (some (Inst.mk t.id (some (rm.2, rm.2 + 1)) r.1))).withRegion
            (Seg.range rm.2 (rm.2 + 1) :: st1.region), r.2)
  | v, st, c =>
      let st1 := if (NodeSt.occ st).isSome then cleanupSt st else st
      (st1.withText (textSet v), c)
termination_by v st c => (sizeOf v, 0)
decreasing_by
· exact lex_of_lt (by simp <;> omega)
· exact lex_of_lt (by simp <;> omega)
· exact lex_of_lt (by simp <;> omega)

end

/-! ### Claim C5 — cleanup range removal

`_cleanup`'s sibling walk, modelled verbatim on a flat list of sibling
node ids (the children of the anchor's parent, anchor and onward). -/

/-- `node.nextSibling` on a flat sibling list of ids: the element following
the first occurrence of `x`, if any. -/
def nextSib : List Nat → Nat → Option Nat
  | [], _ => none
  | a :: rest, x => if a = x then rest.head? else nextSib rest x

theorem nextSib_mem {l : List Nat} {x n : Nat} (h : nextSib l x = some n) : x ∈ l := by
  induction l with
  | nil => simp [nextSib] at h
  | cons a rest ih =>
      by_cases hax : a = x
      · rw [hax]
        exact List.mem_cons_self x rest
      · rw [nextSib, if_neg hax] at h
        exact List.mem_cons_of_mem _ (ih h)

/-- The removal loop of `_cleanup` (source lines 277-285), verbatim: while
the cursor is non-null, capture its next sibling, remove the cursor node
from the tree, and break as soon as the captured next sibling IS the end
sentinel — before removing it. -/
def cleanupRun (l : List Nat) (cur e : Nat) : List Nat :=
  match h : nextSib l cur with
  | none => l.erase cur
  | some n => if n = e then l.erase cur else cleanupRun (l.erase cur) n e
termination_by l.length
decreasing_by
  have hm := nextSib_mem h
  have := List.length_erase_of_mem hm
  have : 0 < l.length := List.length_pos_of_mem hm
  omega

theorem cleanupRun_step (l : List Nat) (cur e : Nat) :
    cleanupRun l cur e
      = match nextSib l cur with
        | none => l.erase cur
        | some n => if n = e then l.erase cur else cleanupRun (l.erase cur) n e := by
  rw [cleanupRun]
  split
  · next h => rw [h]
  · next n h => rw [h]

theorem nextSib_of_notMem {pre : List Nat} {s : Nat} (hs : s ∉ pre) (rest : List Nat) :
    nextSib (pre ++ s :: rest) s = rest.head? := by
  induction pre with
  | nil => simp [nextSib]
  | cons a pre ih =>
      have ha : a ≠ s := fun h => hs (h ▸ List.mem_cons_self a pre)
      simp only [List.cons_append, nextSib, if_neg ha]
      exact ih (fun h => hs (List.mem_cons_of_mem a h))

theorem erase_middle {pre : List Nat} {s : Nat} (hs : s ∉ pre) (rest : List Nat) :
    (pre ++ s :: rest).erase s = pre ++ rest := by
  rw [List.erase_append_right _ hs, List.erase_cons_head]

/-- C5 counterexample: with siblings `[anchor 0, start 1, content 2, end 3]`,
the removal loop removes `1` and `2`, then sees the next sibling is the end
sentinel `3` and breaks before removing it: the end sentinel remains in the
tree, refuting "neither sentinel nor any node between them remains". -/
theorem c5_counterexample :
    cleanupRun [0, 1, 2, 3] 1 3 = [0, 3] ∧ (3 : Nat) ∈ cleanupRun [0, 1, 2, 3] 1 3 := by
  have hx1 : nextSib [0, 1, 2, 3] 1 = some 2 := by decide
  have he1 : ([0, 1, 2, 3] : List Nat).erase 1 = [0, 2, 3] := by decide
  have hx2 : nextSib [0, 2, 3] 2 = some 3 := by decide
  have he2 : ([0, 2, 3] : List Nat).erase 2 = [0, 3] := by decide
  have h1 : cleanupRun [0, 1, 2, 3] 1 3 = cleanupRun [0, 2, 3] 2 3 := by
    rw [cleanupRun_step, hx1, he1]
    norm_num
  have h2 : cleanupRun [0, 2, 3] 2 3 = [0, 3] := by
    rw [cleanupRun_step, hx2]
    norm_num [he2]
  rw [h1, h2]
  exact ⟨rfl, by norm_num⟩

/-- C5 (amended): for a sibling list `pre ++ start :: mid ++ end :: post`
with distinct ids, the removal loop removes the start sentinel and every
node strictly between the sentinels but stops at the end sentinel, which
remains in the tree (`pre ++ end :: post`); and cleanup always clears the
slot's occupancy record. -/
theorem c5_cleanup_amended :
    (∀ (mid pre post : List Nat) (s e : Nat),
      (pre ++ s :: mid ++ e :: post).Nodup →
      cleanupRun (pre ++ s :: mid ++ e :: post) s e = pre ++ e :: post) ∧
    (∀ st : NodeSt, (cleanupSt st).occ = none) := by
  constructor
  · intro mid
    induction mid with
    | nil =>
        intro pre post s e hnd
        rw [List.append_assoc, List.cons_append] at hnd ⊢
        try simp only [List.nil_append] at hnd ⊢
        have hnd' := hnd
        rw [List.nodup_append] at hnd'
        have hs : s ∉ pre := fun hmem => hnd'.2.2 hmem (by simp)
        rw [cleanupRun_step, nextSib_of_notMem hs]
        simp only [List.head?_cons, if_pos rfl]
        exact erase_middle hs _
    | cons m mid ih =>
        intro pre post s e hnd
        rw [List.append_assoc, List.cons_append, List.cons_append] at hnd ⊢
        have hnd' := hnd
        rw [List.nodup_append] at hnd'
        have hs : s ∉ pre := fun hmem => hnd'.2.2 hmem (by simp)
        have hcons := hnd'.2.1
        rw [List.nodup_cons] at hcons
        have hm := hcons.2
        rw [List.nodup_cons] at hm
        have hme : m ≠ e := fun h => hm.1 (by rw [h]; exact List.mem_append_right _ (by simp))
        rw [cleanupRun_step, nextSib_of_notMem hs]
        simp only [List.head?_cons]
        rw [if_neg hme, erase_middle hs]
        have ih' := ih pre post m e
        rw [List.append_assoc, List.cons_append] at ih'
        apply ih'
        have hsub : (pre ++ m :: (mid ++ e :: post)).Sublist
            (pre ++ s :: m :: (mid ++ e :: post)) :=
          List.Sublist.append_left (List.sublist_cons_self s _) pre
        exact List.Nodup.sublist hsub hnd
  · intro st
    rcases st with ⟨a, t, o, r⟩
    rcases r with _ | ⟨sg, rest⟩
    · simp [cleanupSt, NodeSt.occ, NodeSt.region, NodeSt.anchorId, NodeSt.text]
    · rcases sg with st2 | ⟨x, y⟩ <;>
        simp [cleanupSt, NodeSt.occ, NodeSt.region, NodeSt.anchorId, NodeSt.text]

/-- C5 witness: the amended removal theorem evaluated on the concrete
sibling list `[7, 1, 4, 5, 2, 9]` with start `1`, range content `[4, 5]`,
end `2`. -/
theorem c5_witness :
    ([7, 1, 4, 5, 2, 9] : List Nat).Nodup ∧
    cleanupRun [7, 1, 4, 5, 2, 9] 1 2 = [7, 2, 9] :=
  ⟨by decide, by
    have h := c5_cleanup_amended.1 [4, 5] [7] [9] 1 2 (by decide)
    simpa using h⟩

/-! ### Claim C3 — attribute rebuild -/

/-- The attribute rebuild as the spec's words state it, for comparison
with the code's `attrText`: each interpolated value is first passed
through the Value Resolver (`getValue`), then coerced to text. -/
def attrTextSpecResolved : List String → List Value → String
  | [], _ => ""
  | [s], _ => s
  | s :: s2 :: rest, vals =>
      s ++ jsToString (getValue (vals.headD .undef)).1
        ++ attrTextSpecResolved (s2 :: rest) vals.tail

/-- The interleaving of static segments with value texts, the spec-shaped
description of the rebuilt attribute string: segment, value text, segment,
value text, ..., segment (a missing value text renders as "undefined"). -/
def interleaveStrings : List String → List String → String
  | [], _ => ""
  | [s], _ => s
  | s :: s2 :: rest, vs =>
      s ++ vs.headD "undefined" ++ interleaveStrings (s2 :: rest) vs.tail

/-- C3 counterexample: for the attribute `class="(marker)"` updated with a
single deferred value (a zero-argument callable returning "v"), the code
concatenates the raw value — coercing the function object itself to its
source text — without invoking the Value Resolver, so the written string
is the function's source text, not "v" as the claim requires. -/
theorem c3_counterexample :
    attrText ["", ""] [Value.thunk (some (Value.str "v"))] = "function-source" ∧
    attrTextSpecResolved ["", ""] [Value.thunk (some (Value.str "v"))] = "v" ∧
    attrText ["", ""] [Value.thunk (some (Value.str "v"))]
      ≠ attrTextSpecResolved ["", ""] [Value.thunk (some (Value.str "v"))] := by
  refine ⟨rfl, rfl, ?_⟩
  decide

theorem attrText_eq_interleave (strings : List String) (vals : List Value) :
    attrText strings vals = interleaveStrings strings (vals.map jsToString) := by
  induction strings generalizing vals with
  | nil => rfl
  | cons s rest ih =>
      cases rest with
      | nil => rfl
      | cons s2 rest2 =>
          rw [attrText, interleaveStrings]
          have h1 : (vals.map jsToString).headD "undefined"
              = jsToString (vals.headD .undef) := by
            cases vals <;> rfl
          have h2 : (vals.map jsToString).tail = vals.tail.map jsToString := by
            cases vals <;> rfl
          rw [h1, h2, ih vals.tail]

/-- C3 (amended): `update` rewrites each attribute part's full string in a
single attribute write, the string being exactly the interleaving
`s_0 + text(v_1) + s_1 + ... + text(v_k) + s_k` of the part's static
segments with the RAW values coerced to text — the values are not passed
through the Value Resolver in the attribute path (deferred values are not
invoked there; see the counterexample).  For the literal
`class="a (marker) b (marker) c"` with values `["x", "y"]` the written
string is exactly "a x b y c". -/
theorem c3_attr_rebuild_amended :
    (∀ strings vals, attrText strings vals
        = interleaveStrings strings (vals.map jsToString)) ∧
    (∀ name strings w rest vals c,
      updSlots (Slot.attrS name strings w :: rest) vals c
        = (Slot.attrS name strings (some (attrText strings vals))
              :: (updSlots rest (vals.drop (strings.length - 1)) c).1,
           (updSlots rest (vals.drop (strings.length - 1)) c).2)) ∧
    jsSplit "a \x7b\x7b\x7d\x7d b \x7b\x7b\x7d\x7d c" = ["a ", " b ", " c"] ∧
    attrText ["a ", " b ", " c"] [Value.str "x", Value.str "y"] = "a x b y c" := by
  refine ⟨attrText_eq_interleave, ?_, by decide, by decide⟩
  intro name strings w rest vals c
  rw [updSlots]

/-! ### Claim C7 — deferred-value resolution -/

/-- Whether a value is of deferred kind (a zero-argument callable). -/
def isThunk : Value → Bool
  | .thunk _ => true
  | _ => false

/-- The rendered text of a node slot (empty for attribute slots). -/
def nodeText : Slot → String
  | .attrS _ _ _ => ""
  | .nodeS st => st.text

theorem getValue_not_thunk (v : Value) : isThunk (getValue v).1 = false := by
  match v with
  | .thunk none => rfl
  | .thunk (some w) =>
      rw [getValue]
      exact getValue_not_thunk w
  | .str s => rfl
  | .undef => rfl
  | .res t vs => rfl
  | .arr vs => rfl

/-- C7: deferred-value resolution: the Value Resolver repeatedly invokes a
zero-argument callable until the value is non-callable; a callable that
throws is caught inside `getValue` (so nothing propagates out of
`update()`, which is a total transformation here), the failure is reported
(the `true` flag models the `console.error` call), and the resolver yields
`undefined`, which the node-slot write turns into empty text for this
update cycle; a node slot updated with a callable returning "v" renders
exactly "v", and one updated with a throwing callable renders empty. -/
theorem c7_deferred_resolution :
    (∀ v : Value, isThunk (getValue v).1 = false) ∧
    (∀ v : Value, getValue (Value.thunk (some v)) = getValue v) ∧
    getValue (Value.thunk none) = (Value.undef, true) ∧
    (∀ st c, (updSlots [Slot.nodeS st] [Value.thunk (some (Value.str "v"))] c).1.map nodeText
        = ["v"]) ∧
    (∀ st c, (updSlots [Slot.nodeS st] [Value.thunk none] c).1.map nodeText = [""]) := by
  refine ⟨getValue_not_thunk, fun v => by rw [getValue], rfl, ?_, ?_⟩
  · intro st c
    simp only [updSlots, List.headD, getValue, renderNodeValue, renderValue]
    simp [nodeText, textSet, jsToString]
  · intro st c
    simp only [updSlots, List.headD, getValue, renderNodeValue, renderValue]
    simp [nodeText, textSet]

/-! ### Claim C9 — iterable expansion -/

theorem renderItems_length (items : List Value) (c : Nat) :
    (renderItems items c).1.length = items.length := by
  induction items generalizing c with
  | nil => simp [renderItems]
  | cons v vs ih => simp [renderItems, ih]

theorem renderItems_strings (ss : List String) (c : Nat) :
    renderItems (ss.map Value.str) c
      = ((List.range ss.length).map fun i =>
          Seg.node (NodeSt.mk (c + i) (ss.getD i "") none []), c + ss.length) := by
  induction ss generalizing c with
  | nil => simp [renderItems]
  | cons s rest ih =>
      have hmarker : renderValue (Value.str s) (NodeSt.mk c "" none []) (c + 1)
          = (NodeSt.mk c s none [], c + 1) := by
        simp only [renderValue]
        simp [textSet, jsToString, NodeSt.withText]
      simp only [List.map_cons, renderItems, hmarker]
      rw [ih (c + 1)]
      refine Prod.ext ?_ ?_
      · simp only [List.length_cons, List.range_succ_eq_map, List.map_cons, List.map_map]
        refine congrArg₂ _ ?_ ?_
        · simp
        · refine List.map_congr_left fun i _ => ?_
          simp only [Function.comp_apply, List.getD_cons_succ, Nat.succ_eq_add_one]
          have hc : c + 1 + i = c + (i + 1) := by omega
          rw [hc]
      · simp
        omega

/-- C9: iterable expansion: for a node slot whose resolved value is an
iterable of n items, update builds a fragment of exactly n fresh marker
text nodes — one per item, in iteration order, each item rendered at its
marker by `_renderValue` — and inserts the fragment's contents immediately
after the slot's anchor node (before anything previously inserted there),
while the anchor itself stays in place with its id and text unchanged.
For plain string items the markers carry the item texts in order at
consecutive fresh ids; a slot given ["a","b","c"] renders exactly those
three texts in that order adjacent to the anchor. -/
theorem c9_iterable_expansion :
    (∀ (items : List Value) (st : NodeSt) (c : Nat),
      ((renderNodeValue (Value.arr items) st c).1).anchorId = st.anchorId ∧
      ((renderNodeValue (Value.arr items) st c).1).text = st.text ∧
      ((renderNodeValue (Value.arr items) st c).1).region
        = (renderItems items c).1
            ++ (if (NodeSt.occ st).isSome then cleanupSt st else st).region ∧
      (renderItems items c).1.length = items.length) ∧
    (∀ (ss : List String) (c : Nat),
      renderItems (ss.map Value.str) c
        = ((List.range ss.length).map fun i =>
            Seg.node (NodeSt.mk (c + i) (ss.getD i "") none []), c + ss.length)) ∧
    (renderItems [Value.str "a", Value.str "b", Value.str "c"] 10).1
      = [Seg.node (NodeSt.mk 10 "a" none []),
         Seg.node (NodeSt.mk 11 "b" none []),
         Seg.node (NodeSt.mk 12 "c" none [])] := by
  refine ⟨?_, renderItems_strings, ?_⟩
  · intro items st c
    refine ⟨?_, ?_, ?_, renderItems_length items c⟩
    · simp only [renderNodeValue, anchorId_withRegion]
      split
      · exact cleanupSt_anchorId st
      · rfl
    · simp only [renderNodeValue, text_withRegion]
      split
      · exact cleanupSt_text st
      · rfl
    · simp only [renderNodeValue, region_withRegion]
  · have h := renderItems_strings ["a", "b", "c"] 10
    simp only [List.map_cons, List.map_nil] at h
    rw [h]
    simp [List.range_succ]

/-! ### Claim C4 — nested-instance reuse by template identity

The three behaviours of `_renderValue` on a TemplateResult value,
extracted as equations (shared by the C4 and C6 developments). -/

theorem cleanupSt_occ (st : NodeSt) : (cleanupSt st).occ = none := by
  rcases st with ⟨a, t, o, r⟩
  rcases r with _ | ⟨sg, rest⟩
  · simp [cleanupSt]
  · rcases sg with st2 | ⟨x, y⟩ <;> simp [cleanupSt]

/-- Reuse: the occupant's template is reference-identical to the result's
template — no cleanup, no insertion, no text write; the occupant alone is
updated with the new values. -/
theorem renderValue_res_reuse (t : Templ) (tvals : List Value) (st : NodeSt) (c : Nat)
    (inst : Inst) (hocc : st.occ = some inst) (hid : t.id = Inst.tmplId inst) :
    renderValue (Value.res t tvals) st c
      = (st.withOcc (some (Inst.mk (Inst.tmplId inst) (Inst.bounds inst)
            (updSlots (Inst.slots inst) tvals c).1)),
         (updSlots (Inst.slots inst) tvals c).2) := by
  have hnc : needsCleanup st (some t.id) = false := by
    simp [needsCleanup, hocc, hid]
  simp only [renderValue, hocc, hnc, if_false, if_pos hid, Bool.false_eq_true]

/-- Creation with an empty occupancy record: the anchor's text is cleared
and a fresh sentinel-bounded instance is inserted at the head of the
region, then updated. -/
theorem renderValue_res_create_none (t : Templ) (tvals : List Value) (st : NodeSt) (c : Nat)
    (hocc : st.occ = none) :
    renderValue (Value.res t tvals) st c
      = (((st.withText "").withOcc
            (some (Inst.mk t.id (some ((mkSlots t.parts c).2, (mkSlots t.parts c).2 + 1))
              (updSlots (mkSlots t.parts c).1 tvals ((mkSlots t.parts c).2 + 2)).1))).withRegion
          (Seg.range (mkSlots t.parts c).2 ((mkSlots t.parts c).2 + 1) :: st.region),
         (updSlots (mkSlots t.parts c).1 tvals ((mkSlots t.parts c).2 + 2)).2) := by
  have hnc : needsCleanup st (some t.id) = false := by
    simp [needsCleanup, hocc]
  simp only [renderValue, hocc, hnc, Bool.false_eq_true, if_false]

/-- Replacement: the occupant's template differs from the result's —
cleanup first (leaving the occupant's end sentinel in place), then clear
the anchor's text and insert a fresh sentinel-bounded instance at the head
of the region, then update it. -/
theorem renderValue_res_create_mismatch (t : Templ) (tvals : List Value) (st : NodeSt)
    (c : Nat) (inst : Inst) (hocc : st.occ = some inst) (hid : t.id ≠ Inst.tmplId inst) :
    renderValue (Value.res t tvals) st c
      = ((((cleanupSt st).withText "").withOcc
            (some (Inst.mk t.id (some ((mkSlots t.parts c).2, (mkSlots t.parts c).2 + 1))
              (updSlots (mkSlots t.parts c).1 tvals ((mkSlots t.parts c).2 + 2)).1))).withRegion
          (Seg.range (mkSlots t.parts c).2 ((mkSlots t.parts c).2 + 1)
            :: (cleanupSt st).region),
         (updSlots (mkSlots t.parts c).1 tvals ((mkSlots t.parts c).2 + 2)).2) := by
  have hnc : needsCleanup st (some t.id) = true := by
    simp [needsCleanup, hocc]
    exact fun h => absurd h.symm hid
  simp only [renderValue, hocc, hnc, if_true, if_neg hid]

/-- C4 counterexample: a slot occupied by an instance of template 7 with
sentinel-bounded range `(1, 2)` receives a result of template 9.  The
claim says the old instance's bounded range is removed; in fact the old
end sentinel (node 2) survives cleanup and remains in the region behind
the freshly inserted range `(3, 4)`. -/
theorem c4_counterexample :
    (renderValue (Value.res ⟨9, []⟩ [])
        (NodeSt.mk 0 "x" (some (Inst.mk 7 (some (1, 2)) [])) [Seg.range 1 2]) 3).1.region
      = [Seg.range 3 4, Seg.node (NodeSt.mk 2 "" none [])] := by
  rw [renderValue_res_create_mismatch ⟨9, []⟩ []
      (NodeSt.mk 0 "x" (some (Inst.mk 7 (some (1, 2)) [])) [Seg.range 1 2]) 3
      (Inst.mk 7 (some (1, 2)) []) rfl (by decide)]
  simp [cleanupSt, mkSlots]

/-- C4 (amended): reuse is decided by Template reference identity.  When
the occupancy record holds an instance of the reference-identical
template, that instance is reused and only its update runs — the anchor's
id, text and region (hence the slot's node structure) are unchanged.
When the record is empty, the anchor's text is cleared and a freshly bound
sentinel-bounded instance is inserted immediately after the anchor and
updated.  When the record holds an instance of a different Template object
— including a structurally equal template with a different identity — the
old instance's range is removed EXCEPT for its end sentinel, which
survives as an inert empty text node behind the newly inserted range; the
anchor's text is cleared and a fresh instance is inserted and updated. -/
theorem c4_reuse_amended :
    (∀ (t : Templ) (tvals : List Value) (st : NodeSt) (c : Nat) (inst : Inst),
      st.occ = some inst → t.id = Inst.tmplId inst →
      renderValue (Value.res t tvals) st c
        = (st.withOcc (some (Inst.mk (Inst.tmplId inst) (Inst.bounds inst)
              (updSlots (Inst.slots inst) tvals c).1)),
           (updSlots (Inst.slots inst) tvals c).2)) ∧
    (∀ (t : Templ) (tvals : List Value) (st : NodeSt) (c : Nat),
      st.occ = none →
      ((renderValue (Value.res t tvals) st c).1.text = "" ∧
       (renderValue (Value.res t tvals) st c).1.region
        = Seg.range (mkSlots t.parts c).2 ((mkSlots t.parts c).2 + 1) :: st.region ∧
       (renderValue (Value.res t tvals) st c).1.occ
        = some (Inst.mk t.id (some ((mkSlots t.parts c).2, (mkSlots t.parts c).2 + 1))
            (updSlots (mkSlots t.parts c).1 tvals ((mkSlots t.parts c).2 + 2)).1))) ∧
    (∀ (t : Templ) (tvals : List Value) (st : NodeSt) (c : Nat) (inst : Inst)
        (s e : Nat) (rest : List Seg),
      st.occ = some inst → t.id ≠ Inst.tmplId inst →
      st.region = Seg.range s e :: rest →
      ((renderValue (Value.res t tvals) st c).1.text = "" ∧
       (renderValue (Value.res t tvals) st c).1.region
        = Seg.range (mkSlots t.parts c).2 ((mkSlots t.parts c).2 + 1)
            :: Seg.node (NodeSt.mk e "" none []) :: rest ∧
       (renderValue (Value.res t tvals) st c).1.occ
        = some (Inst.mk t.id (some ((mkSlots t.parts c).2, (mkSlots t.parts c).2 + 1))
            (updSlots (mkSlots t.parts c).1 tvals ((mkSlots t.parts c).2 + 2)).1))) := by
  refine ⟨renderValue_res_reuse, ?_, ?_⟩
  · intro t tvals st c hocc
    rw [renderValue_res_create_none t tvals st c hocc]
    simp
  · intro t tvals st c inst s e rest hocc hid hreg
    rw [renderValue_res_create_mismatch t tvals st c inst hocc hid]
    have hclean : cleanupSt st = NodeSt.mk st.anchorId st.text none
        (Seg.node (NodeSt.mk e "" none []) :: rest) := by
      rcases st with ⟨a, tx, o, r⟩
      simp only [region_mk] at hreg
      subst hreg
      simp [cleanupSt]
    rw [hclean]
    simp

/-- C4 witness: the reuse case of the amended theorem at a concrete slot
occupied by an instance of template 5, receiving a result of the same
template object. -/
theorem c4_witness :
    (NodeSt.mk 0 "t" (some (Inst.mk 5 none [])) []).occ = some (Inst.mk 5 none []) ∧
    (5 : Nat) = Inst.tmplId (Inst.mk 5 none []) ∧
    renderValue (Value.res ⟨5, []⟩ []) (NodeSt.mk 0 "t" (some (Inst.mk 5 none [])) []) 11
      = ((NodeSt.mk 0 "t" (some (Inst.mk 5 none [])) []).withOcc
          (some (Inst.mk 5 none (updSlots [] [] 11).1)), (updSlots [] [] 11).2) :=
  ⟨rfl, rfl, by
    have h := c4_reuse_amended.1 ⟨5, []⟩ []
      (NodeSt.mk 0 "t" (some (Inst.mk 5 none [])) []) 11 (Inst.mk 5 none []) rfl rfl
    simpa using h⟩

/-! ### Claim C10 — anchor persistence -/

/-- The identity-relevant signature of a slot: an attribute slot's name and
static segments, or a node slot's anchor node id. -/
def slotSig : Slot → (String × List String) ⊕ Nat
  | .attrS n ss _ => Sum.inl (n, ss)
  | .nodeS st => Sum.inr st.anchorId

/-- `_renderValue` on every non-TemplateResult value: clean up a stale
occupant, then write the value's text form to the anchor. -/
theorem renderValue_plain (v : Value) (st : NodeSt) (c : Nat)
    (h : ∀ t tvals, v ≠ Value.res t tvals) :
    renderValue v st c
      = ((if (NodeSt.occ st).isSome then cleanupSt st else st).withText (textSet v), c) := by
  match v with
  | .str s => simp [renderValue]
  | .undef => simp [renderValue]
  | .thunk r => simp [renderValue]
  | .arr items => simp [renderValue]
  | .res t tvals => exact absurd rfl (h t tvals)

theorem renderNodeValue_eq_renderValue (v : Value) (st : NodeSt) (c : Nat)
    (h : ∀ items, v ≠ Value.arr items) : renderNodeValue v st c = renderValue v st c := by
  match v with
  | .str s => simp [renderNodeValue]
  | .undef => simp [renderNodeValue]
  | .thunk r => simp [renderNodeValue]
  | .res t tvals => simp [renderNodeValue]
  | .arr items => exact absurd rfl (h items)

theorem renderValue_anchorId (v : Value) (st : NodeSt) (c : Nat) :
    ((renderValue v st c).1).anchorId = st.anchorId := by
  match v with
  | .res t tvals =>
      rcases hocc : st.occ with _ | inst
      · rw [renderValue_res_create_none t tvals st c hocc]
        simp
      · by_cases hid : t.id = Inst.tmplId inst
        · rw [renderValue_res_reuse t tvals st c inst hocc hid]
          simp
        · rw [renderValue_res_create_mismatch t tvals st c inst hocc hid]
          simp [cleanupSt_anchorId]
  | .str s =>
      rw [renderValue_plain _ _ _ (by intro t tvals h; cases h)]
      split <;> simp [cleanupSt_anchorId]
  | .undef =>
      rw [renderValue_plain _ _ _ (by intro t tvals h; cases h)]
      split <;> simp [cleanupSt_anchorId]
  | .thunk r =>
      rw [renderValue_plain _ _ _ (by intro t tvals h; cases h)]
      split <;> simp [cleanupSt_anchorId]
  | .arr items =>
      rw [renderValue_plain _ _ _ (by intro t tvals h; cases h)]
      split <;> simp [cleanupSt_anchorId]

theorem renderNodeValue_anchorId (v : Value) (st : NodeSt) (c : Nat) :
    ((renderNodeValue v st c).1).anchorId = st.anchorId := by
  match v with
  | .arr items =>
      simp only [renderNodeValue, anchorId_withRegion]
      split <;> simp [cleanupSt_anchorId]
  | .str s =>
      rw [renderNodeValue_eq_renderValue _ _ _ (by intro i h; cases h)]
      exact renderValue_anchorId _ _ _
  | .undef =>
      rw [renderNodeValue_eq_renderValue _ _ _ (by intro i h; cases h)]
      exact renderValue_anchorId _ _ _
  | .thunk r =>
      rw [renderNodeValue_eq_renderValue _ _ _ (by intro i h; cases h)]
      exact renderValue_anchorId _ _ _
  | .res t tvals =>
      rw [renderNodeValue_eq_renderValue _ _ _ (by intro i h; cases h)]
      exact renderValue_anchorId _ _ _

/-- One update call preserves every slot's signature: the slot count, each
slot's kind, an attribute slot's name and segments, and a node slot's
anchor node id. -/
theorem updSlots_sig (slots : List Slot) : ∀ (vals : List Value) (c : Nat),
    ((updSlots slots vals c).1).map slotSig = slots.map slotSig := by
  induction slots with
  | nil =>
      intro vals c
      simp [updSlots]
  | cons sl rest ih =>
      intro vals c
      match sl with
      | .attrS n ss w =>
          simp only [updSlots, List.map_cons]
          rw [ih]
          rfl
      | .nodeS st =>
          simp only [updSlots, List.map_cons]
          rw [ih]
          simp [slotSig, renderNodeValue_anchorId]

/-- A sequence of update calls, each with its own value list, threading
the instance's slot states and the allocation counter. -/
def applyUpdates (slots : List Slot) (calls : List (List Value)) (c : Nat) :
    List Slot × Nat :=
  calls.foldl (fun sc vals => updSlots sc.1 vals sc.2) (slots, c)

/-- C10: anchor persistence: for every node Part of a bound instance, the
anchor text node paired with it at binding time survives every sequence of
update calls with arbitrary values of every kind — `_renderValue` only
writes the anchor's text or inserts siblings after it, and `_cleanup`
removes only the sentinel-bounded range lying strictly after the anchor —
so the slot list keeps its length, each slot its kind, each attribute slot
its name and segments, and each node slot its anchor node id: the
(Part, node) pairing established at bind time stays valid for the
instance's whole lifetime. -/
theorem c10_anchor_persistence (slots : List Slot) (calls : List (List Value)) (c : Nat) :
    ((applyUpdates slots calls c).1).map slotSig = slots.map slotSig := by
  induction calls generalizing slots c with
  | nil => rfl
  | cons vals rest ih =>
      rw [applyUpdates, List.foldl_cons]
      have h := ih (updSlots slots vals c).1 (updSlots slots vals c).2
      rw [applyUpdates] at h
      rw [h, updSlots_sig]

/-! ### Claim C6 — update idempotence -/

mutual

/-- A value contains no iterable anywhere (plain, deferred with a
non-iterable result, or a template result all of whose values satisfy the
same condition). -/
def noIterB : Value → Bool
  | .str _ => true
  | .undef => true
  | .thunk none => true
  | .thunk (some v) => noIterB v
  | .res _ vs => noIterL vs
  | .arr _ => false

/-- All values in the list contain no iterable. -/
def noIterL : List Value → Bool
  | [] => true
  | v :: vs => noIterB v && noIterL vs

end

theorem noIter_getValue {v : Value} (h : noIterB v = true) :
    noIterB (getValue v).1 = true := by
  match v with
  | .thunk none => simp [getValue, noIterB]
  | .thunk (some w) =>
      rw [getValue]
      exact noIter_getValue (by simpa [noIterB] using h)
  | .str s => exact h
  | .undef => exact h
  | .res t vs => exact h
  | .arr items => simp [noIterB] at h

theorem noIterL_headD {vals : List Value} (h : noIterL vals = true) :
    noIterB (vals.headD .undef) = true := by
  cases vals with
  | nil => rfl
  | cons v vs =>
      simp only [noIterL, Bool.and_eq_true] at h
      exact h.1

theorem noIterL_tail {vals : List Value} (h : noIterL vals = true) :
    noIterL vals.tail = true := by
  cases vals with
  | nil => exact h
  | cons v vs =>
      simp only [noIterL, Bool.and_eq_true] at h
      exact h.2

theorem noIterL_drop {vals : List Value} (h : noIterL vals = true) (k : Nat) :
    noIterL (vals.drop k) = true := by
  induction vals generalizing k with
  | nil => cases k <;> exact h
  | cons v vs ih =>
      cases k with
      | zero => exact h
      | succ k =>
          simp only [noIterL, Bool.and_eq_true] at h
          exact ih h.2 k

theorem noIter_not_arr {v : Value} (h : noIterB v = true) :
    ∀ items, v ≠ Value.arr items := by
  intro items he
  rw [he] at h
  simp [noIterB] at h

@[simp] theorem withText_withText (st : NodeSt) (a b : String) :
    (st.withText a).withText b = st.withText b := rfl

theorem withOcc_eq_self {st : NodeSt} {o : Option Inst} (h : st.occ = o) :
    st.withOcc o = st := by
  rcases st with ⟨a, t, oc, r⟩
  simp only [occ_mk] at h
  rw [← h]
  rfl

mutual

/-- A second update with the same (iterable-free) values is the identity
on the slot states and allocates nothing: the incoming counter is returned
untouched. -/
theorem updSlots_idemAux (slots : List Slot) (vals : List Value) (c : Nat)
    (h : noIterL vals = true) :
    ∀ c', updSlots (updSlots slots vals c).1 vals c' = ((updSlots slots vals c).1, c') := by
  match slots with
  | [] =>
      intro c'
      simp [updSlots]
  | .attrS name strings w :: rest =>
      intro c'
      have ih := updSlots_idemAux rest (vals.drop (strings.length - 1)) c
        (noIterL_drop h _)
      simp only [updSlots]
      rw [ih c']
  | .nodeS st :: rest =>
      intro c'
      have hv : noIterB ((getValue (vals.headD .undef)).1) = true :=
        noIter_getValue (noIterL_headD h)
      have harr := noIter_not_arr hv
      have hrv := renderValue_idemAux ((getValue (vals.headD .undef)).1) st c hv
      have ih := updSlots_idemAux rest vals.tail
        (renderValue ((getValue (vals.headD .undef)).1) st c).2 (noIterL_tail h)
      have hrv1 : (renderValue ((getValue (vals.headD .undef)).1)
          (renderValue ((getValue (vals.headD .undef)).1) st c).1 c').1
          = (renderValue ((getValue (vals.headD .undef)).1) st c).1 := by rw [hrv c']
      have hrv2 : (renderValue ((getValue (vals.headD .undef)).1)
          (renderValue ((getValue (vals.headD .undef)).1) st c).1 c').2 = c' := by rw [hrv c']
      have ih1 : (updSlots (updSlots rest vals.tail
          (renderValue ((getValue (vals.headD .undef)).1) st c).2).1 vals.tail c').1
          = (updSlots rest vals.tail
              (renderValue ((getValue (vals.headD .undef)).1) st c).2).1 := by rw [ih c']
      have ih2 : (updSlots (updSlots rest vals.tail
          (renderValue ((getValue (vals.headD .undef)).1) st c).2).1 vals.tail c').2 = c' := by
        rw [ih c']
      simp only [updSlots]
      rw [renderNodeValue_eq_renderValue _ _ _ harr,
        renderNodeValue_eq_renderValue _ _ _ harr]
      rw [hrv1, hrv2, ih1, ih2]
termination_by (sizeOf vals, slots.length + 2)
decreasing_by
· exact lex_of_le (sizeOf_drop_le vals _) (by simp)
· exact lex_of_le (le_trans (getValue_fst_sizeOf _) (headD_sizeOf_le vals)) (by omega)
· exact lex_of_le (tail_sizeOf_le vals) (by simp)

/-- A second `_renderValue` of the same (iterable-free) value is the
identity on the slot state and allocates nothing. -/
theorem renderValue_idemAux (v : Value) (st : NodeSt) (c : Nat) (h : noIterB v = true) :
    ∀ c', renderValue v (renderValue v st c).1 c' = ((renderValue v st c).1, c') := by
  match v with
  | .res t tvals =>
      intro c'
      have hvals : noIterL tvals = true := by simpa [noIterB] using h
      rcases hocc : st.occ with _ | inst
      · -- creation from an empty slot; the created state is a fixpoint
        have ihs := updSlots_idemAux (mkSlots t.parts c).1 tvals
          ((mkSlots t.parts c).2 + 2) hvals
        rw [renderValue_res_create_none t tvals st c hocc]
        rw [renderValue_res_reuse t tvals _ c'
          (Inst.mk t.id (some ((mkSlots t.parts c).2, (mkSlots t.parts c).2 + 1))
            (updSlots (mkSlots t.parts c).1 tvals ((mkSlots t.parts c).2 + 2)).1)
          (by simp) (by simp)]
        simp only [tmplId_mk, bounds_mk, slots_mk]
        rw [ihs c']
        rw [withOcc_eq_self (by simp)]
      · by_cases hid : t.id = Inst.tmplId inst
        · -- reuse: the updated occupant is a fixpoint
          have ihs := updSlots_idemAux (Inst.slots inst) tvals c hvals
          rw [renderValue_res_reuse t tvals st c inst hocc hid]
          rw [renderValue_res_reuse t tvals _ c'
            (Inst.mk (Inst.tmplId inst) (Inst.bounds inst)
              (updSlots (Inst.slots inst) tvals c).1)
            (by simp) (by simpa using hid)]
          simp only [tmplId_mk, bounds_mk, slots_mk]
          rw [ihs c']
          rw [withOcc_eq_self (by simp)]
        · -- replacement: the freshly created state is a fixpoint
          have ihs := updSlots_idemAux (mkSlots t.parts c).1 tvals
            ((mkSlots t.parts c).2 + 2) hvals
          rw [renderValue_res_create_mismatch t tvals st c inst hocc hid]
          rw [renderValue_res_reuse t tvals _ c'
            (Inst.mk t.id (some ((mkSlots t.parts c).2, (mkSlots t.parts c).2 + 1))
              (updSlots (mkSlots t.parts c).1 tvals ((mkSlots t.parts c).2 + 2)).1)
            (by simp) (by simp)]
          simp only [tmplId_mk, bounds_mk, slots_mk]
          rw [ihs c']
          rw [withOcc_eq_self (by simp)]
  | .str s =>
      intro c'
      have hnr : ∀ t tvals, Value.str s ≠ Value.res t tvals := by intro t tvals he; cases he
      rw [renderValue_plain _ st c hnr, renderValue_plain _ _ c' hnr]
      have hocc1 : ((if (NodeSt.occ st).isSome then cleanupSt st else st).withText
          (textSet (Value.str s))).occ = none := by
        simp only [occ_withText]
        split
        · exact cleanupSt_occ st
        · next h' => exact Option.not_isSome_iff_eq_none.1 (by simpa using h')
      rw [hocc1]
      simp
  | .undef =>
      intro c'
      have hnr : ∀ t tvals, Value.undef ≠ Value.res t tvals := by intro t tvals he; cases he
      rw [renderValue_plain _ st c hnr, renderValue_plain _ _ c' hnr]
      have hocc1 : ((if (NodeSt.occ st).isSome then cleanupSt st else st).withText
          (textSet Value.undef)).occ = none := by
        simp only [occ_withText]
        split
        · exact cleanupSt_occ st
        · next h' => exact Option.not_isSome_iff_eq_none.1 (by simpa using h')
      rw [hocc1]
      simp
  | .thunk r =>
      intro c'
      have hnr : ∀ t tvals, Value.thunk r ≠ Value.res t tvals := by intro t tvals he; cases he
      rw [renderValue_plain _ st c hnr, renderValue_plain _ _ c' hnr]
      have hocc1 : ((if (NodeSt.occ st).isSome then cleanupSt st else st).withText
          (textSet (Value.thunk r))).occ = none := by
        simp only [occ_withText]
        split
        · exact cleanupSt_occ st
        · next h' => exact Option.not_isSome_iff_eq_none.1 (by simpa using h')
      rw [hocc1]
      simp
  | .arr items =>
      intro c'
      simp [noIterB] at h
termination_by (sizeOf v, 0)
decreasing_by
· exact lex_of_lt (by simp <;> omega)
· exact lex_of_lt (by simp <;> omega)
· exact lex_of_lt (by simp <;> omega)

end

/-- C6 counterexample: a node slot updated twice in a row with the same
iterable value `["a"]`.  The first update inserts one marker node after
the anchor; the second update inserts ANOTHER fresh marker before it
instead of leaving the tree unchanged — the slot's region grows from one
node to two and a fresh node id is allocated, refuting idempotence for
iterables. -/
theorem c6_counterexample :
    updSlots [Slot.nodeS (NodeSt.mk 0 "" none [])] [Value.arr [Value.str "a"]] 1
      = ([Slot.nodeS (NodeSt.mk 0 "" none [Seg.node (NodeSt.mk 1 "a" none [])])], 2) ∧
    updSlots [Slot.nodeS (NodeSt.mk 0 "" none [Seg.node (NodeSt.mk 1 "a" none [])])]
        [Value.arr [Value.str "a"]] 2
      = ([Slot.nodeS (NodeSt.mk 0 "" none
          [Seg.node (NodeSt.mk 2 "a" none []), Seg.node (NodeSt.mk 1 "a" none [])])], 3) ∧
    updSlots [Slot.nodeS (NodeSt.mk 0 "" none [Seg.node (NodeSt.mk 1 "a" none [])])]
        [Value.arr [Value.str "a"]] 2
      ≠ ([Slot.nodeS (NodeSt.mk 0 "" none [Seg.node (NodeSt.mk 1 "a" none [])])], 2) := by
  have h1 : updSlots [Slot.nodeS (NodeSt.mk 0 "" none [])] [Value.arr [Value.str "a"]] 1
      = ([Slot.nodeS (NodeSt.mk 0 "" none [Seg.node (NodeSt.mk 1 "a" none [])])], 2) := by
    simp only [updSlots, List.headD, getValue, renderNodeValue, renderItems, renderValue,
      textSet, jsToString]
    simp [NodeSt.withRegion, NodeSt.withText]
  have h2 : updSlots [Slot.nodeS (NodeSt.mk 0 "" none [Seg.node (NodeSt.mk 1 "a" none [])])]
        [Value.arr [Value.str "a"]] 2
      = ([Slot.nodeS (NodeSt.mk 0 "" none
          [Seg.node (NodeSt.mk 2 "a" none []), Seg.node (NodeSt.mk 1 "a" none [])])], 3) := by
    simp only [updSlots, List.headD, getValue, renderNodeValue, renderItems, renderValue,
      textSet, jsToString]
    simp [NodeSt.withRegion, NodeSt.withText]
  refine ⟨h1, h2, ?_⟩
  rw [h2]
  intro heq
  have := congrArg Prod.snd heq
  simp at this

/-- C6 (amended): update idempotence holds for plain values, deferred
values and nested Template Results, but NOT for iterables: for every bound
instance and every value sequence containing no iterable anywhere
(including inside nested results), a second update() with the same values
is the identity on the slot states — the same attribute strings, the same
anchor texts, the same regions, no change of node identity or node count —
and allocates no node (the incoming counter is returned unchanged).  A
slot holding an iterable re-inserts fresh nodes on every update (see the
counterexample), as the spec's own design notes (§9) acknowledge. -/
theorem c6_idempotent_amended (slots : List Slot) (vals : List Value) (c c' : Nat)
    (h : noIterL vals = true) :
    updSlots (updSlots slots vals c).1 vals c' = ((updSlots slots vals c).1, c') :=
  updSlots_idemAux slots vals c h c'

/-- C6 witness: the amended theorem at a concrete two-slot instance (one
node part, one attribute part) with a plain and a deferred value. -/
theorem c6_witness :
    noIterL [Value.str "hi", Value.thunk (some (Value.str "x"))] = true ∧
    updSlots (updSlots [Slot.nodeS (NodeSt.mk 0 "" none []),
          Slot.attrS "class" ["a", "b"] none]
        [Value.str "hi", Value.thunk (some (Value.str "x"))] 1).1
      [Value.str "hi", Value.thunk (some (Value.str "x"))] 5
      = ((updSlots [Slot.nodeS (NodeSt.mk 0 "" none []),
            Slot.attrS "class" ["a", "b"] none]
          [Value.str "hi", Value.thunk (some (Value.str "x"))] 1).1, 5) :=
  ⟨by decide,
    c6_idempotent_amended
      [Slot.nodeS (NodeSt.mk 0 "" none []), Slot.attrS "class" ["a", "b"] none]
      [Value.str "hi", Value.thunk (some (Value.str "x"))] 1 5 (by decide)⟩

end LitHtml
